import Mathlib

namespace Spec2Proof

/-! Shallow embedding of the touchHLE guest/host bridge components that the
verified claims concern: the guest-memory abstraction, the Objective-C
object runtime as exercised by NSObject, the printf family, the UIView
hierarchy, and the AudioToolbox component-instance table.  Components whose
Rust sources are provided are translated from those sources; components the
sources only call into (the memory module, the objc runtime primitives, the
variadic-argument cursor) are modelled from the design spec and are marked
as such in their doc comments. -/

/-- Modelled from the spec: an Allocation Record of the Guest Memory
component, a triple of base address, size and live/freed flag (spec
section 3); the memory module itself is not among the provided sources. -/
structure Alloc where
  base : Nat
  size : Nat
  live : Bool
deriving DecidableEq

/-- Modelled from the spec: the Guest Memory component (spec sections 3 and
4.1): an allocation table plus sparse byte content; addresses are plain
offsets into the simulated linear space. -/
structure GuestMem where
  allocs : List Alloc
  nextBase : Nat
  content : List (Nat × UInt8)
deriving DecidableEq

/-- Whether the byte range of length len starting at addr lies inside the
given live allocation. -/
def addrInAlloc (al : Alloc) (addr len : Nat) : Bool :=
  al.live && decide (al.base ≤ addr) && decide (addr + len ≤ al.base + al.size)

/-- Modelled from the spec: every memory operation validates the address
range against the allocation table (spec section 4.1). -/
def validRange (m : GuestMem) (addr len : Nat) : Bool :=
  m.allocs.any fun al => addrInAlloc al addr len

/-- Modelled from the spec: allocate appends a fresh live allocation
record; fresh addresses are taken past every prior allocation. -/
def allocate (m : GuestMem) (size : Nat) : GuestMem × Nat :=
  ({ allocs := m.allocs ++ [{ base := m.nextBase, size := size, live := true }],
     nextBase := m.nextBase + size,
     content := m.content }, m.nextBase)

/-- Byte stored at an address; unwritten bytes read as zero. -/
def lookupByte (m : GuestMem) (addr : Nat) : UInt8 :=
  match m.content.lookup addr with
  | some b => b
  | none => 0

/-- Modelled from the spec: typed read of len contiguous bytes; fails
loudly (returns none) when the range is not inside a live allocation. -/
def readBytes (m : GuestMem) (addr len : Nat) : Option (List UInt8) :=
  if validRange m addr len then
    some ((List.range len).map fun i => lookupByte m (addr + i))
  else none

/-- Store one byte into the sparse content map. -/
def storeByte (content : List (Nat × UInt8)) (addr : Nat) (b : UInt8) :
    List (Nat × UInt8) :=
  (addr, b) :: content.filter fun e => ¬ e.1 = addr

/-- Modelled from the spec: typed write of a byte sequence; fails loudly
(returns none) when the range is not inside a live allocation. -/
def writeBytes (m : GuestMem) (addr : Nat) (bs : List UInt8) : Option GuestMem :=
  if validRange m addr bs.length then
    some { m with content := (bs.foldl
      (fun (st : List (Nat × UInt8) × Nat) b => (storeByte st.1 st.2 b, st.2 + 1))
      (m.content, addr)).1 }
  else none

/-- Modelled from the spec: free marks the allocation with the given base
address as no longer live; freeing an address that is not the base of a
live allocation is a detectable error (double free or invalid free), not
undefined behaviour. -/
def memFree (m : GuestMem) (addr : Nat) : Option GuestMem :=
  if m.allocs.any fun al => al.live && decide (al.base = addr) then
    some { m with allocs := m.allocs.map fun al =>
      if al.live && decide (al.base = addr) then { al with live := false } else al }
  else none

/-- Guest Memory wellformedness: every allocation record lies entirely
below the fresh-allocation cursor. -/
def memWf (m : GuestMem) : Prop :=
  ∀ al ∈ m.allocs, al.base + al.size ≤ m.nextBase

instance (m : GuestMem) : Decidable (memWf m) := by
  unfold memWf
  exact List.decidableBAll _ _

/-- The empty guest memory, used as a concrete witness state. -/
def mem0 : GuestMem := { allocs := [], nextBase := 0, content := [] }

/-- Concrete witness memory: a single three-byte allocation at address 0. -/
def memA : GuestMem := (allocate mem0 3).1

/-- Host-side state for one audio component instance
(audio_components.rs, AudioComponentInstanceHostObject); the fields beyond
started (stream formats, render callback, timing, AL source) do not affect
the dispose path and are elided here. -/
structure AciHostObject where
  started : Bool
deriving DecidableEq

/-- The audio_toolbox audio-components framework state
(audio_components.rs, State): the table mapping guest instance addresses
to host objects, together with the guest memory the instances are
allocated in. -/
structure AudioState where
  instances : List (Nat × AciHostObject)
  mem : GuestMem
deriving DecidableEq

/-- AudioComponentInstanceNew (audio_components.rs): allocates a one-byte
guest instance, inserts a default host object into the table and reports
success; the out-pointer write is represented by returning the fresh
address. -/
def audioComponentInstanceNew (s : AudioState) : AudioState × Nat × Int :=
  let p := allocate s.mem 1
  ({ instances := (p.2, { started := false }) :: s.instances, mem := p.1 }, p.2, 0)

/-- AudioComponentInstanceDispose (audio_components.rs): a null instance
yields OSStatus -50 with no state change; otherwise the table entry is
removed, the instance's guest allocation freed, and 0 returned.  A free of
an invalid address is the memory module's detectable error (none). -/
def audioComponentInstanceDispose (s : AudioState) (inInstance : Nat) :
    Option (AudioState × Int) :=
  if inInstance = 0 then some (s, -50)
  else
    match memFree s.mem inInstance with
    | some mem' =>
        some ({ instances := s.instances.filter fun e => ¬ e.1 = inInstance,
                mem := mem' }, 0)
    | none => none

/-- Concrete audio witness state: empty table over a memory whose fresh
addresses start at 4, so allocated instances are non-null. -/
def audioState0 : AudioState :=
  { instances := [], mem := { allocs := [], nextBase := 4, content := [] } }

/-- Concrete audio witness state with one live instance at address 4. -/
def audioState1 : AudioState := (audioComponentInstanceNew audioState0).1

/-- An f64 value as an unnormalised exact fraction, the double stand-in
used by the float conversions; kept free of gcd normalisation so concrete
runs reduce by plain evaluation. -/
structure Dbl where
  num : Int
  den : Nat
deriving DecidableEq

/-- Floor of num over den, for positive den. -/
def Dbl.floorInt (q : Dbl) : Int := Int.fdiv q.num (q.den : Int)

/-- Truncation toward zero of num over den (the Rust trunc-and-cast). -/
def Dbl.truncInt (q : Dbl) : Int := Int.tdiv q.num (q.den : Int)

/-- Exact division by a power of ten. -/
def Dbl.divPow10 (q : Dbl) (e : Int) : Dbl :=
  if 0 ≤ e then { num := q.num, den := q.den * 10 ^ e.toNat }
  else { num := q.num * (10 : Int) ^ (-e).toNat, den := q.den }

/-- Modelled from the spec: one slot of a variadic call site.  The ABI
marshaller (abi module, not under the provided sources) exposes a cursor
over these; an integer slot stores a 32-bit pattern, a pointer slot a
guest address, and a double slot an f64 value, modelled as an exact
fraction. -/
inductive VaArg where
  | intArg (bits : Nat)
  | ptrArg (p : Nat)
  | doubleArg (q : Dbl)
deriving DecidableEq

/-- Modelled from the spec: the Variadic Argument Cursor is an iterator
over the call site's extra arguments; consumption advances monotonically
and is not rewindable (spec section 3), so it is a list consumed from the
front. -/
abbrev VaList := List VaArg

/-- Declared argument type of one cursor read. -/
inductive ArgTag where
  | intTag
  | ptrTag
  | doubleTag
deriving DecidableEq

/-- The slot kind an argument occupies. -/
def VaArg.tag : VaArg → ArgTag
  | .intArg _ => .intTag
  | .ptrArg _ => .ptrTag
  | .doubleArg _ => .doubleTag

/-- Two's-complement reading of a 32-bit pattern. -/
def toSigned32 (b : Nat) : Int :=
  if b % 4294967296 < 2147483648 then ((b % 4294967296 : Nat) : Int)
  else ((b % 4294967296 : Nat) : Int) - 4294967296

/-- Modelled from the spec: cursor read of a signed 32-bit integer; a
slot of the wrong kind is a marshalling mismatch that fails loudly. -/
def nextI32 : VaList → Option (Int × VaList)
  | VaArg.intArg b :: r => some (toSigned32 b, r)
  | _ => none

/-- Cursor read of an unsigned 32-bit integer. -/
def nextU32 : VaList → Option (Nat × VaList)
  | VaArg.intArg b :: r => some (b % 4294967296, r)
  | _ => none

/-- Modelled from the spec: integer types below a word are promoted to a
full word, so reading a u8 takes the low byte of an integer slot. -/
def nextU8 : VaList → Option (Nat × VaList)
  | VaArg.intArg b :: r => some (b % 256, r)
  | _ => none

/-- Cursor read of a u16 (the unichar type). -/
def nextU16 : VaList → Option (Nat × VaList)
  | VaArg.intArg b :: r => some (b % 65536, r)
  | _ => none

/-- Cursor read of a pointer slot. -/
def nextPtr : VaList → Option (Nat × VaList)
  | VaArg.ptrArg p :: r => some (p, r)
  | _ => none

/-- Cursor read of an f64 slot. -/
def nextF64 : VaList → Option (Dbl × VaList)
  | VaArg.doubleArg q :: r => some (q, r)
  | _ => none

/-- Decimal digits of a natural number as ASCII bytes. -/
def natDecimal (n : Nat) : List UInt8 :=
  (Nat.toDigits 10 n).map fun c => UInt8.ofNat c.toNat

/-- Lowercase hexadecimal digits of a natural number as ASCII bytes. -/
def natHexLower (n : Nat) : List UInt8 :=
  (Nat.toDigits 16 n).map fun c => UInt8.ofNat c.toNat

/-- Uppercase hexadecimal digits of a natural number as ASCII bytes. -/
def natHexUpper (n : Nat) : List UInt8 :=
  (Nat.toDigits 16 n).map fun c => UInt8.ofNat c.toUpper.toNat

/-- Decimal rendering of an integer, sign first. -/
def intDecimal (i : Int) : List UInt8 :=
  (if i < 0 then [45] else []) ++ natDecimal i.natAbs

/-- Rust-style numeric zero padding of an integer to a total width: the
fill zeros go between the sign and the digits. -/
def zeroPadNumeric (width : Nat) (i : Int) : List UInt8 :=
  let sign : List UInt8 := if i < 0 then [45] else []
  let digits := natDecimal i.natAbs
  sign ++ List.replicate (width - (sign.length + digits.length)) 48 ++ digits

/-- Rust numeric zero-fill applied to an already-rendered signed number:
zeros are inserted after a leading minus sign. -/
def zeroPadSigned (width : Nat) (s : List UInt8) : List UInt8 :=
  match s with
  | 45 :: rest => 45 :: (List.replicate (width - s.length) 48 ++ rest)
  | _ => List.replicate (width - s.length) 48 ++ s

/-- Rust-style string padding: right-aligns the string inside the width
with the given fill byte. -/
def stringPad (fill : UInt8) (width : Nat) (s : List UInt8) : List UInt8 :=
  List.replicate (width - s.length) fill ++ s

/-- Round a over b to the nearest natural, ties to even: the digit
rounding Rust float formatting performs, taken over the fraction
stand-in for f64. -/
def divRoundHalfEven (a b : Nat) : Nat :=
  let f := a / b
  let r := a % b
  if 2 * r < b then f
  else if b < 2 * r then f + 1
  else if f % 2 = 0 then f else f + 1

/-- Fixed-point rendering with the given count of fractional digits,
mirroring Rust's precision formatting of floats over the fraction
stand-in. -/
def formatFixed (q : Dbl) (prec : Nat) : List UInt8 :=
  let scaled := divRoundHalfEven (q.num.natAbs * 10 ^ prec) q.den
  let digits := natDecimal scaled
  let padded := List.replicate (prec + 1 - digits.length) 48 ++ digits
  (if q.num < 0 then [45] else []) ++
    padded.take (padded.length - prec) ++
    (if prec = 0 then [] else 46 :: padded.drop (padded.length - prec))

/-- UTF-8 encoding of a scalar value below 0x10000 (used by the %C
conversion). -/
def utf8Encode (n : Nat) : List UInt8 :=
  if n < 128 then [UInt8.ofNat n]
  else if n < 2048 then
    [UInt8.ofNat (192 + n / 64), UInt8.ofNat (128 + n % 64)]
  else
    [UInt8.ofNat (224 + n / 4096), UInt8.ofNat (128 + (n / 64) % 64),
     UInt8.ofNat (128 + n % 64)]

/-- Ceiling of the base-10 logarithm of a positive natural, via digit
counts. -/
def clog10 (m : Nat) : Nat :=
  if m ≤ 1 then 0 else (natDecimal (m - 1)).length

/-- Floor of the base-10 logarithm of a positive fraction.  For
non-positive arguments the Rust source computes through a NaN; no claim
exercises that path and the model returns 0 there. -/
def log10Floor (q : Dbl) : Int :=
  if q.num ≤ 0 then 0
  else if (q.den : Int) ≤ q.num then
    ((natDecimal q.floorInt.toNat).length : Int) - 1
  else -((clog10 ((q.den + q.num.toNat - 1) / q.num.toNat) : Int))

/-- Display rendering of a fraction, standing in for Rust's default f64
Display: exact integers print without a decimal point, other values with
six fractional digits (a stand-in choice; no claim depends on it). -/
def dblDisplay (q : Dbl) : List UInt8 :=
  if q.num % (q.den : Int) = 0 then intDecimal (Int.fdiv q.num (q.den : Int))
  else formatFixed q 6

/-- One conversion specification as scanned by printf_inner: pad
character, star or literal width, optional precision, optional l length
modifier, and the specifier byte. -/
structure ConvSpec where
  padZero : Bool
  starWidth : Bool
  litWidth : Nat
  precision : Option Nat
  lengthMod : Bool
  spec : UInt8
deriving DecidableEq

/-- Consume one expected byte from the front if present. -/
def takeByte (b : UInt8) : List UInt8 → Bool × List UInt8
  | c :: r => if c = b then (true, r) else (false, c :: r)
  | [] => (false, [])

/-- Scan a run of decimal digits (printf_inner's width and precision
loops). -/
def scanDigits (acc : Nat) : List UInt8 → Nat × List UInt8
  | c :: r =>
      if 48 ≤ c.toNat ∧ c.toNat ≤ 57 then scanDigits (acc * 10 + (c.toNat - 48)) r
      else (acc, c :: r)
  | [] => (acc, [])

/-- Parse the pad flag, width, precision, length modifier and specifier
that follow a percent byte, in printf_inner's scanning order; none when
the format string ends before a specifier byte (the source asserts the
specifier is not NUL). -/
def parseConv (l : List UInt8) : Option (ConvSpec × List UInt8) :=
  let p0 := takeByte 48 l
  let p1 : Bool × Nat × List UInt8 :=
    match takeByte 42 p0.2 with
    | (true, r) => (true, 0, r)
    | (false, _) =>
        let d := scanDigits 0 p0.2
        (false, d.1, d.2)
  let p2 : Option Nat × List UInt8 :=
    match takeByte 46 p1.2.2 with
    | (true, r) =>
        let d := scanDigits 0 r
        (some d.1, d.2)
    | (false, _) => (none, p1.2.2)
  let p3 := takeByte 108 p2.2
  match p3.2 with
  | [] => none
  | sp :: rest =>
      some ({ padZero := p0.1, starWidth := p1.1, litWidth := p1.2.1,
              precision := p2.1, lengthMod := p3.1, spec := sp }, rest)

/-- The integer conversion specifiers (printf.rs INTEGER_SPECIFIERS). -/
def integerSpecifiers : List UInt8 := [100, 105, 111, 117, 120, 88]

/-- The float conversion specifiers (printf.rs FLOAT_SPECIFIERS). -/
def floatSpecifiers : List UInt8 := [102, 101, 103]

/-- Read-only context printf_inner draws on beyond the cursor: C-string
bytes in guest memory for %s, and object description bytes for the NSLog
object conversion. -/
structure FmtEnv where
  cstrAt : Nat → List UInt8
  descrOf : Nat → List UInt8

/-- One conversion's output bytes and cursor effect: the body of
printf_inner's match on the specifier byte (printf.rs lines 92-293),
with the percent-literal case and the precision assertion placed exactly
as in the source.  none stands for the source's panics. -/
def convOutput (nsLog : Bool) (fenv : FmtEnv) (cs : ConvSpec) (padWidth : Nat)
    (args : VaList) : Option (List UInt8 × VaList) :=
  if cs.spec = 37 then some ([37], args)
  else if cs.precision.isSome ∧
      ¬ (cs.spec ∈ integerSpecifiers ∨ cs.spec ∈ floatSpecifiers) then none
  else if cs.spec = 99 then
    if cs.lengthMod then none
    else match nextU8 args with
      | some (c, args1) =>
          if cs.padZero = false ∧ padWidth = 0 then some ([UInt8.ofNat c], args1)
          else none
      | none => none
  else if cs.spec = 67 then
    if cs.lengthMod then none
    else match nextU16 args with
      | some (c, args1) =>
          if cs.padZero = false ∧ padWidth = 0 then
            if 55296 ≤ c ∧ c < 57344 then none
            else some (utf8Encode c, args1)
          else none
      | none => none
  else if cs.spec = 115 then
    if cs.lengthMod then none
    else match nextPtr args with
      | some (p, args1) =>
          if cs.padZero = false ∧ padWidth = 0 then
            if p ≠ 0 then some (fenv.cstrAt p, args1)
            else some ([40, 110, 117, 108, 108, 41], args1)
          else none
      | none => none
  else if cs.spec = 100 ∨ cs.spec = 105 ∨ cs.spec = 117 then
    let popped : Option (Int × VaList) :=
      if cs.spec = 117 then (nextU32 args).map fun p => ((p.1 : Int), p.2)
      else nextI32 args
    match popped with
    | some (int, args1) =>
        let intWithPrecision :=
          match cs.precision with
          | some prc => if 0 < prc then zeroPadNumeric prc int else intDecimal int
          | none => intDecimal int
        let outBytes :=
          if 0 < padWidth then
            if cs.padZero ∧ cs.precision = none then
              stringPad 48 padWidth intWithPrecision
            else stringPad 32 padWidth intWithPrecision
          else intWithPrecision
        some (outBytes, args1)
    | none => none
  else if cs.spec = 64 then
    if nsLog then
      match nextPtr args with
      | some (p, args1) => some (fenv.descrOf p, args1)
      | none => none
    else none
  else if cs.spec = 120 then
    match nextU32 args with
    | some (u, args1) => some (natHexLower u, args1)
    | none => none
  else if cs.spec = 88 then
    match nextU32 args with
    | some (u, args1) => some (natHexUpper u, args1)
    | none => none
  else if cs.spec = 112 then
    if cs.lengthMod then none
    else match nextPtr args with
      | some (p, args1) => some ([48, 120] ++ natHexLower p, args1)
      | none => none
  else if cs.spec = 102 then
    match nextF64 args with
    | some (q, args1) =>
        let prc := cs.precision.getD 6
        let body := formatFixed q prc
        let outBytes :=
          if cs.padZero then zeroPadSigned padWidth body
          else stringPad 32 padWidth body
        some (outBytes, args1)
    | none => none
  else if cs.spec = 101 then
    match nextF64 args with
    | some (q, args1) =>
        let prc := cs.precision.getD 6
        let exponent := log10Floor q
        let mantissa := q.divPow10 exponent
        let sign : List UInt8 := if 0 ≤ q.num then [43] else [45]
        let floatExpNotation :=
          formatFixed mantissa prc ++ [101] ++ sign ++
            zeroPadSigned 2 (intDecimal exponent)
        let outBytes :=
          if cs.padZero then stringPad 48 padWidth floatExpNotation
          else stringPad 32 padWidth floatExpNotation
        some (outBytes, args1)
    | none => none
  else if cs.spec = 103 then
    match nextF64 args with
    | some (q, args1) =>
        let ftrunc : Int := q.truncInt
        let floatTruncLen := (intDecimal ftrunc).length
        let formattedF :=
          match cs.precision with
          | some prc =>
              if floatTruncLen < prc then formatFixed q (prc - floatTruncLen)
              else formatFixed q 4
          | none => formatFixed q 4
        let exponent := log10Floor q
        let mantissa := q.divPow10 exponent
        let sign : List UInt8 := if 0 ≤ q.num then [43] else [45]
        let mtrunc : Int := mantissa.truncInt
        let mantissaTruncLen := (intDecimal mtrunc).length
        let formattedE :=
          match cs.precision with
          | some prc =>
              if mantissaTruncLen < prc then
                formatFixed mantissa (prc - mantissaTruncLen) ++ [101] ++ sign ++
                  zeroPadSigned 2 (intDecimal exponent)
              else
                formatFixed mantissa 0 ++ [101] ++ sign ++
                  zeroPadSigned 2 (intDecimal exponent)
          | none =>
              dblDisplay mantissa ++ [101] ++ sign ++
                zeroPadSigned 2 (intDecimal exponent)
        let formattedG :=
          if formattedF.length < formattedE.length then formattedF else formattedE
        let outBytes :=
          if cs.padZero then stringPad 48 padWidth formattedG
          else stringPad 32 padWidth formattedG
        some (outBytes, args1)
    | none => none
  else none

/-- String formatting engine of the printf and NSLog families (printf.rs,
printf_inner), over a NUL-free byte list standing for the NUL-terminated
format string, fuelled by the remaining format length.  Returns the
produced bytes and the un-consumed variadic cursor; none stands for the
source's panics (assertion failures, marshalling mismatches and
unimplemented conversions). -/
def printfInner (nsLog : Bool) (fenv : FmtEnv) : Nat → List UInt8 → VaList →
    Option (List UInt8 × VaList)
  | 0, _, _ => none
  | _ + 1, [], args => some ([], args)
  | fuel + 1, c :: rest, args =>
      if c ≠ 37 then
        match printfInner nsLog fenv fuel rest args with
        | some (out, rem) => some (c :: out, rem)
        | none => none
      else
        match parseConv rest with
        | none => none
        | some (cs, rest1) =>
            let widthArgs : Option (Nat × VaList) :=
              if cs.starWidth then
                match nextI32 args with
                | some (w, args1) => if w < 0 then none else some (w.toNat, args1)
                | none => none
              else some (cs.litWidth, args)
            match widthArgs with
            | none => none
            | some (padWidth, args1) =>
                match convOutput nsLog fenv cs padWidth args1 with
                | none => none
                | some (outc, args2) =>
                    match printfInner nsLog fenv fuel rest1 args2 with
                    | some (out, rem) => some (outc ++ out, rem)
                    | none => none

/-- Argument tags one conversion requests from the cursor. -/
def convTags (nsLog : Bool) (cs : ConvSpec) : Option (List ArgTag) :=
  if cs.spec = 37 then some []
  else if cs.spec = 99 ∨ cs.spec = 67 ∨ cs.spec = 100 ∨ cs.spec = 105 ∨
      cs.spec = 117 ∨ cs.spec = 120 ∨ cs.spec = 88 then some [ArgTag.intTag]
  else if cs.spec = 115 ∨ cs.spec = 112 then some [ArgTag.ptrTag]
  else if cs.spec = 64 then (if nsLog then some [ArgTag.ptrTag] else none)
  else if cs.spec = 102 ∨ cs.spec = 101 ∨ cs.spec = 103 then
    some [ArgTag.doubleTag]
  else none

/-- Declared argument types of a format string in order of appearance: a
star width is an int read preceding the conversion's own read. -/
def specTags (nsLog : Bool) : Nat → List UInt8 → Option (List ArgTag)
  | 0, _ => none
  | _ + 1, [] => some []
  | fuel + 1, c :: rest =>
      if c ≠ 37 then specTags nsLog fuel rest
      else
        match parseConv rest with
        | none => none
        | some (cs, rest1) =>
            let starTag : List ArgTag :=
              if cs.starWidth then [ArgTag.intTag] else []
            match convTags nsLog cs, specTags nsLog fuel rest1 with
            | some tags, some more => some (starTag ++ tags ++ more)
            | _, _ => none

/-- vsnprintf (printf.rs): formats, truncates to n - 1 bytes, writes a
NUL terminator, and returns the full untruncated length.  The n - 1 is
computed in 32-bit arithmetic as in the source; writing more bytes than
the n-byte destination slice holds is the slice panic (none), and so is
an i32 overflow of the returned length.  The destination buffer is
abstracted to the list of bytes written. -/
def vsnprintfModel (fenv : FmtEnv) (n : Nat) (fmt : List UInt8)
    (args : VaList) : Option (List UInt8 × Int) :=
  match printfInner false fenv (fmt.length + 1) fmt args with
  | none => none
  | some (res, _) =>
      let nm1 := (n + 4294967295) % 4294967296
      let middle := if nm1 < res.length then res.take nm1 else res
      if n < middle.length + 1 then none
      else if 2147483647 < res.length then none
      else some (middle ++ [0], (res.length : Int))

/-- snprintf (printf.rs): delegates to vsnprintf on the started cursor. -/
def snprintfModel (fenv : FmtEnv) (n : Nat) (fmt : List UInt8)
    (args : VaList) : Option (List UInt8 × Int) :=
  vsnprintfModel fenv n fmt args

/-- Concrete format context for the witnesses: address 100 holds the
C string "ok". -/
def fenvEx : FmtEnv :=
  { cstrAt := fun p => if p = 100 then [111, 107] else [],
    descrOf := fun _ => [] }

/-- The format string of the cursor-order test, percent-d space
percent-s space percent-f. -/
def fmtEx : List UInt8 := [37, 100, 32, 37, 115, 32, 37, 102]

/-- The packed arguments of the cursor-order test: int 3, the C string
at address 100, double 1.5. -/
def argsEx : VaList :=
  [VaArg.intArg 3, VaArg.ptrArg 100, VaArg.doubleArg { num := 3, den := 2 }]

/-- Modelled from the spec: a Class Descriptor (spec section 3): parent
reference into a single-rooted arena, a method table of selector names
paired with the first byte of their declared type string, and the set of
adopted protocols; the objc runtime module is not under the provided
sources. -/
structure ClassDesc where
  superclass : Option Nat
  methods : List (List Char × UInt8)
  protocols : List Nat
deriving DecidableEq

/-- Modelled from the spec: class descriptors live in an arena and refer
to parents by index (spec section 9). -/
abbrev ClassTable := List ClassDesc

/-- Modelled from the spec: the subclass test walks the ancestor chain
from the class toward the root; fuelled by the arena size. -/
def isSubclassOfFuel (ct : ClassTable) : Nat → Nat → Nat → Bool
  | 0, _, _ => false
  | fuel + 1, c, target =>
      if c = target then true
      else
        match ct[c]? with
        | none => false
        | some d =>
            match d.superclass with
            | some p => isSubclassOfFuel ct fuel p target
            | none => false

/-- class_is_subclass_of of the objc runtime (modelled from the spec). -/
def classIsSubclassOf (ct : ClassTable) (c target : Nat) : Bool :=
  isSubclassOfFuel ct (ct.length + 1) c target

/-- The ancestor chain of a class: the class followed by its transitive
superclasses, as far as the arena resolves them. -/
def ancestorChainFuel (ct : ClassTable) : Nat → Nat → List Nat
  | 0, _ => []
  | fuel + 1, c =>
      c ::
        (match ct[c]? with
         | some d =>
             match d.superclass with
             | some p => ancestorChainFuel ct fuel p
             | none => []
         | none => [])

/-- The ancestor chain at the canonical fuel. -/
def ancestorChain (ct : ClassTable) (c : Nat) : List Nat :=
  ancestorChainFuel ct (ct.length + 1) c

/-- Modelled from the spec: method lookup walks the ancestor chain and
returns the first matching entry's type byte. -/
def lookupMethodFuel (ct : ClassTable) : Nat → Nat → List Char → Option UInt8
  | 0, _, _ => none
  | fuel + 1, c, sel =>
      match ct[c]? with
      | none => none
      | some d =>
          match d.methods.lookup sel with
          | some t => some t
          | none =>
              match d.superclass with
              | some p => lookupMethodFuel ct fuel p sel
              | none => none

/-- lookup_method of the objc runtime (modelled from the spec). -/
def lookupMethod (ct : ClassTable) (c : Nat) (sel : List Char) : Option UInt8 :=
  lookupMethodFuel ct (ct.length + 1) c sel

/-- class_has_method of the objc runtime (modelled from the spec: a pure
lookup over the immutable class metadata). -/
def classHasMethod (ct : ClassTable) (c : Nat) (sel : List Char) : Bool :=
  (lookupMethod ct c sel).isSome

/-- Modelled from the spec: protocol conformance is capability-set
membership, checked along the ancestor chain. -/
def classConformsToFuel (ct : ClassTable) : Nat → Nat → Nat → Bool
  | 0, _, _ => false
  | fuel + 1, c, p =>
      match ct[c]? with
      | none => false
      | some d =>
          if p ∈ d.protocols then true
          else
            match d.superclass with
            | some sup => classConformsToFuel ct fuel sup p
            | none => false

/-- class_conformsToProtocol of the objc runtime (modelled from the
spec). -/
def classConformsToProtocol (ct : ClassTable) (c p : Nat) : Bool :=
  classConformsToFuel ct (ct.length + 1) c p

/-- Arena wellformedness: a superclass reference points strictly below
its own index (the arena is append-only, parents are created first). -/
def wfClasses (ct : ClassTable) : Bool :=
  (List.range ct.length).all fun i =>
    match ct[i]? with
    | some d =>
        match d.superclass with
        | some p => decide (p < i)
        | none => true
    | none => true

/-- One guest object's runtime metadata, its class and reference count.
Modelled from the spec (Guest Object, Reference Count; spec section 3). -/
structure ObjcObj where
  isa : Nat
  refcount : Int
deriving DecidableEq

/-- Modelled from the spec: the object runtime state: the class arena,
the registered selector names, the address-to-object lookup table, the
guest memory objects live in, and a ghost log of dealloc events used to
state the exactly-once teardown property. -/
structure ObjcState where
  classes : ClassTable
  selectors : List (List Char)
  objects : List (Nat × ObjcObj)
  mem : GuestMem
  deallocLog : List Nat
deriving DecidableEq

/-- Table lookup by guest address. -/
def lookupObj (s : ObjcState) (a : Nat) : Option ObjcObj :=
  s.objects.lookup a

/-- Replace one object's entry in place. -/
def updateObj (l : List (Nat × ObjcObj)) (a : Nat) (o : ObjcObj) :
    List (Nat × ObjcObj) :=
  l.map fun e => if e.1 = a then (a, o) else e

/-- Modelled from the spec: retain's increment of the per-object
counter; an unknown address is a detectable error. -/
def incRefcount (s : ObjcState) (a : Nat) : Option ObjcState :=
  match lookupObj s a with
  | some o =>
      some
        { s with
          objects := updateObj s.objects a { o with refcount := o.refcount + 1 } }
  | none => none

/-- Modelled from the spec: release's decrement, reporting whether the
count transitioned from 1 to 0; a release past zero is a detectable
misuse, reported rather than wrapping. -/
def decRefcount (s : ObjcState) (a : Nat) : Option (ObjcState × Bool) :=
  match lookupObj s a with
  | some o =>
      if o.refcount ≤ 0 then none
      else
        some
          ({ s with
             objects := updateObj s.objects a { o with refcount := o.refcount - 1 } },
            o.refcount == 1)
  | none => none

/-- Modelled from the spec: deallocation removes the object from the
lookup table and frees its Guest Memory slot. -/
def deallocObject (s : ObjcState) (a : Nat) : Option ObjcState :=
  match lookupObj s a with
  | none => none
  | some _ =>
      match memFree s.mem a with
      | none => none
      | some mem' =>
          some
            { s with
              objects := s.objects.filter fun e => ¬ e.1 = a,
              mem := mem' }

/-- NSObject retain (ns_object.rs): increments the count and returns the
receiver. -/
def nsRetain (s : ObjcState) (a : Nat) : Option (ObjcState × Nat) :=
  (incRefcount s a).map fun s' => (s', a)

/-- NSObject dealloc (ns_object.rs): tears the object down through
dealloc_object; the ghost log records the event. -/
def nsDealloc (s : ObjcState) (a : Nat) : Option ObjcState :=
  (deallocObject s a).map fun s' =>
    { s' with deallocLog := s'.deallocLog ++ [a] }

/-- NSObject release (ns_object.rs): decrements the count and sends
dealloc exactly on the 1 to 0 transition. -/
def nsRelease (s : ObjcState) (a : Nat) : Option ObjcState :=
  match decRefcount s a with
  | some (s', hitZero) => if hitZero then nsDealloc s' a else some s'
  | none => none

/-- NSObject retainCount (ns_object.rs). -/
def nsRetainCount (s : ObjcState) (a : Nat) : Option Int :=
  (lookupObj s a).map ObjcObj.refcount

/-- A guest-visible reference-counting call. -/
inductive RcOp where
  | ret (a : Nat)
  | rel (a : Nat)
deriving DecidableEq

/-- Run a sequence of retain and release calls. -/
def runRcOps : ObjcState → List RcOp → Option ObjcState
  | s, [] => some s
  | s, RcOp.ret a :: r =>
      match nsRetain s a with
      | some p => runRcOps p.1 r
      | none => none
  | s, RcOp.rel a :: r =>
      match nsRelease s a with
      | some s' => runRcOps s' r
      | none => none

/-- Object-runtime wellformedness: unique keys, every live count at
least one, every live object owning a live allocation at its address,
live objects absent from the dealloc log, and a repeat-free log. -/
def objcWf (s : ObjcState) : Prop :=
  (s.objects.map Prod.fst).Nodup ∧
  (∀ e ∈ s.objects, 1 ≤ e.2.refcount) ∧
  (∀ e ∈ s.objects,
    (s.mem.allocs.any fun al => al.live && decide (al.base = e.1)) = true) ∧
  (∀ e ∈ s.objects, e.1 ∉ s.deallocLog) ∧
  s.deallocLog.Nodup

instance (s : ObjcState) : Decidable (objcWf s) := by
  unfold objcWf
  infer_instance

/-- read_isa (modelled from the spec: an object's class is recovered
from its table entry). -/
def readIsa (s : ObjcState) (a : Nat) : Option Nat :=
  (lookupObj s a).map ObjcObj.isa

/-- NSObject class (ns_object.rs): reads the receiver's isa. -/
def nsClassOf (s : ObjcState) (this : Nat) : Option (ObjcState × Nat) :=
  (readIsa s this).map fun c => (s, c)

/-- NSObject isMemberOfClass: (ns_object.rs): exact class equality. -/
def nsIsMemberOfClass (s : ObjcState) (this cls : Nat) :
    Option (ObjcState × Bool) :=
  match nsClassOf s this with
  | some (s1, c) => some (s1, c == cls)
  | none => none

/-- NSObject isKindOfClass: (ns_object.rs): the subclass walk from the
receiver's class. -/
def nsIsKindOfClass (s : ObjcState) (this cls : Nat) :
    Option (ObjcState × Bool) :=
  match nsClassOf s this with
  | some (s1, c) => some (s1, classIsSubclassOf s1.classes c cls)
  | none => none

/-- NSObject respondsToSelector: (ns_object.rs). -/
def nsRespondsToSelector (s : ObjcState) (this : Nat) (sel : List Char) :
    Option (ObjcState × Bool) :=
  match nsClassOf s this with
  | some (s1, c) => some (s1, classHasMethod s1.classes c sel)
  | none => none

/-- NSObject conformsToProtocol: (ns_object.rs). -/
def nsConformsToProtocol (s : ObjcState) (this p : Nat) :
    Option (ObjcState × Bool) :=
  match nsClassOf s this with
  | some (s1, c) => some (s1, classConformsToProtocol s1.classes c p)
  | none => none

/-- Uppercase an ASCII letter (the to_ascii_uppercase of the source). -/
def asciiUpper (c : Char) : Char :=
  if 97 ≤ c.toNat ∧ c.toNat ≤ 122 then Char.ofNat (c.toNat - 32) else c

/-- The synthesized setter selector: set, the key with its first
character uppercased, and a trailing colon (ns_object.rs
setValue:forKey:); none stands for the index panic on an empty key. -/
def setSelName (key : List Char) : Option (List Char) :=
  match key with
  | [] => none
  | k0 :: rest => some ('s' :: 'e' :: 't' :: asciiUpper k0 :: (rest ++ [':']))

/-- The underscore-prefixed setter selector the source tries second. -/
def underscoreSetSelName (key : List Char) : Option (List Char) :=
  match key with
  | [] => none
  | k0 :: rest =>
      some ('_' :: 's' :: 'e' :: 't' :: asciiUpper k0 :: (rest ++ [':']))

/-- lookup_selector (modelled from the spec: the runtime's registered
selector table). -/
def lookupSelector (s : ObjcState) (name : List Char) : Option (List Char) :=
  if name ∈ s.selectors then some name else none

/-- Outcome of a key-value-coding operation: a dispatch to a selector,
or the loud unhandled-key failure (the source's unimplemented panic). -/
inductive KvcResult where
  | dispatched (sel : List Char)
  | unhandledKey
deriving DecidableEq

/-- The underscore-variant fallback attempt of setValue:forKey:
(ns_object.rs lines 166-176). -/
def nsSetValueUnderscore (s : ObjcState) (cls : Nat) (key : List Char) :
    Option KvcResult :=
  match underscoreSetSelName key with
  | none => none
  | some n2 =>
      match lookupSelector s n2 with
      | some sel =>
          if classHasMethod s.classes cls sel then
            some (KvcResult.dispatched sel)
          else some KvcResult.unhandledKey
      | none => some KvcResult.unhandledKey

/-- NSObject setValue:forKey: (ns_object.rs): asserts the key is ASCII,
synthesizes the set accessor name and dispatches when the receiver's
class has it, then tries the underscore variant, and otherwise fails
with the unhandled-key condition; none stands for the assertion
panics. -/
def nsSetValueForKey (s : ObjcState) (this : Nat) (key : List Char) :
    Option KvcResult :=
  if ¬ (key.all fun c => c.toNat ≤ 127) then none
  else
    match readIsa s this with
    | none => none
    | some cls =>
        match setSelName key with
        | none => none
        | some n1 =>
            match lookupSelector s n1 with
            | some sel =>
                if classHasMethod s.classes cls sel then
                  some (KvcResult.dispatched sel)
                else nsSetValueUnderscore s cls key
            | none => nsSetValueUnderscore s cls key

/-- NSObject valueForKey: (ns_object.rs): looks the key itself up as a
getter selector; a found method dispatches when its return type byte is
object or int (the int result is wrapped in an NSNumber by the source),
any other type is the source's todo panic (none); a missing selector or
method is the unhandled-key condition. -/
def nsValueForKey (s : ObjcState) (this : Nat) (key : List Char) :
    Option KvcResult :=
  match readIsa s this with
  | none => none
  | some cls =>
      match lookupSelector s key with
      | some sel =>
          match lookupMethod s.classes cls sel with
          | some t =>
              if t = 64 then some (KvcResult.dispatched sel)
              else if t = 105 then some (KvcResult.dispatched sel)
              else none
          | none => some KvcResult.unhandledKey
      | none => some KvcResult.unhandledKey

/-- A guest memory with live one-word allocations at addresses 8 and 16,
backing the refcount witness objects. -/
def memObj : GuestMem :=
  { allocs := [{ base := 8, size := 4, live := true },
               { base := 16, size := 4, live := true }],
    nextBase := 20, content := [] }

/-- Witness object-runtime state: one object of count 2 at address 8 and
one of count 1 at address 16. -/
def sObj : ObjcState :=
  { classes := [], selectors := [],
    objects := [(8, { isa := 0, refcount := 2 }),
                (16, { isa := 0, refcount := 1 })],
    mem := memObj, deallocLog := [] }

/-- A four-class witness arena: root 0, middle 1 under 0, leaf 2 under
1, and an unrelated class 3 under 0. -/
def ctEx : ClassTable :=
  [{ superclass := none, methods := [], protocols := [] },
   { superclass := some 0, methods := [], protocols := [] },
   { superclass := some 1, methods := [], protocols := [] },
   { superclass := some 0, methods := [], protocols := [] }]

/-- Witness state for the reflection queries: one instance of the leaf
class 2 at address 8. -/
def sCls : ObjcState :=
  { classes := ctEx, selectors := [],
    objects := [(8, { isa := 2, refcount := 1 })],
    mem := memObj, deallocLog := [] }

/-- The key foo of the key-value-coding counterexample. -/
def fooKey : List Char := ['f', 'o', 'o']

/-- The synthesized selector setFoo-colon. -/
def setFooSel : List Char := ['s', 'e', 't', 'F', 'o', 'o', ':']

/-- The underscore fallback selector of the counterexample. -/
def uSetFooSel : List Char := ['_', 's', 'e', 't', 'F', 'o', 'o', ':']

/-- Counterexample state: the class has only the underscore setter, and
only that selector is registered. -/
def sKvc : ObjcState :=
  { classes := [{ superclass := none, methods := [(uSetFooSel, 64)],
                  protocols := [] }],
    selectors := [uSetFooSel],
    objects := [(8, { isa := 0, refcount := 1 })],
    mem := memObj, deallocLog := [] }

/-- The state after releasing the count-two object at 8 in sObj. -/
def sObjRel : ObjcState :=
  { classes := [], selectors := [],
    objects := [(8, { isa := 0, refcount := 1 }),
                (16, { isa := 0, refcount := 1 })],
    mem := memObj, deallocLog := [] }

/-- The guest memory of sObj with the allocation at 16 freed. -/
def memObjFreed16 : GuestMem :=
  { allocs := [{ base := 8, size := 4, live := true },
               { base := 16, size := 4, live := false }],
    nextBase := 20, content := [] }

/-- The state after releasing the count-one object at 16 in sObj: the
object is gone, its slot freed, and its teardown logged. -/
def sObjDe : ObjcState :=
  { classes := [], selectors := [],
    objects := [(8, { isa := 0, refcount := 2 })],
    mem := memObjFreed16, deallocLog := [16] }

/-- UIView host object (ui_view.rs, UIViewHostObject) together with its
objc reference count: the layer is an opaque id (CALayer is outside the
provided sources and its sublayer bookkeeping does not touch the view
table), subviews are strong back-to-front references, and superview is a
weak reference with 0 standing for nil. -/
structure ViewObj where
  refcount : Nat
  layer : Nat
  subviews : List Nat
  superview : Nat
deriving DecidableEq

/-- The UIKit view subsystem state: the object table restricted to views
and the framework's non-retaining global views list (ui_view.rs,
State.views). -/
structure ViewState where
  table : List (Nat × ViewObj)
  views : List Nat
deriving DecidableEq

/-- Table lookup by view address. -/
def lookupView (s : ViewState) (a : Nat) : Option ViewObj :=
  s.table.lookup a

/-- Replace one entry of a keyed list in place (generic form of the
borrow_mut writes). -/
def updateEntry {β : Type} (l : List (Nat × β)) (a : Nat) (v : β) :
    List (Nat × β) :=
  l.map fun e => if e.1 = a then (a, v) else e

/-- objc retain reaching a view (NSObject retain). -/
def retainView (s : ViewState) (a : Nat) : Option ViewState :=
  match lookupView s a with
  | some v =>
      some { s with table := updateEntry s.table a { v with refcount := v.refcount + 1 } }
  | none => none

/-- Vec swap_remove: move the last element into the removed index and
shorten by one (the views bookkeeping in UIView dealloc). -/
def swapRemove (l : List Nat) (i : Nat) : List Nat :=
  match l.getLast? with
  | none => []
  | some x => (l.set i x).dropLast

/-- Tag distinguishing the mutually recursive teardown operations:
release of one view, dealloc of one view, or the dealloc loop over a
taken subviews list. -/
inductive ViewCall where
  | rel (a : Nat)
  | dea (a : Nat)
  | subs (l : List Nat)
deriving DecidableEq

/-- The fuelled teardown engine, combining objc release (dispatching
UIView dealloc on the 1 to 0 transition), UIView dealloc (ui_view.rs:
take the host object's fields, release the taken layer (CALayer state,
elided), assert the taken superview is nil, process the taken subviews,
swap_remove the view from the global views list, and remove it from the
table), and the dealloc loop (nil each subview's superview, then release
it, in order).  none stands for fuel exhaustion or the source's
panics. -/
def viewExec : Nat → ViewCall → ViewState → Option ViewState
  | 0, _, _ => none
  | fuel + 1, ViewCall.rel a, s =>
      match lookupView s a with
      | none => none
      | some v =>
          if v.refcount = 0 then none
          else
            let s1 : ViewState := { s with table := updateEntry s.table a { v with refcount := v.refcount - 1 } }
            if v.refcount - 1 = 0 then viewExec fuel (ViewCall.dea a) s1
            else some s1
  | fuel + 1, ViewCall.dea a, s =>
      match lookupView s a with
      | none => none
      | some v =>
          let s1 : ViewState := { s with table := updateEntry s.table a { refcount := v.refcount, layer := 0, subviews := [], superview := 0 } }
          if v.superview ≠ 0 then none
          else
            match viewExec fuel (ViewCall.subs v.subviews) s1 with
            | none => none
            | some s2 =>
                match s2.views.findIdx? fun y => y == a with
                | none => none
                | some i =>
                    some { table := s2.table.filter fun e => ¬ e.1 = a,
                           views := swapRemove s2.views i }
  | _ + 1, ViewCall.subs [], s => some s
  | fuel + 1, ViewCall.subs (v :: rest), s =>
      match lookupView s v with
      | none => none
      | some vo =>
          let s1 : ViewState := { s with table := updateEntry s.table v { vo with superview := 0 } }
          match viewExec fuel (ViewCall.rel v) s1 with
          | none => none
          | some s2 => viewExec fuel (ViewCall.subs rest) s2

/-- objc release reaching a view. -/
def releaseView (fuel : Nat) (s : ViewState) (a : Nat) : Option ViewState :=
  viewExec fuel (ViewCall.rel a) s

/-- UIView dealloc. -/
def deallocView (fuel : Nat) (s : ViewState) (a : Nat) : Option ViewState :=
  viewExec fuel (ViewCall.dea a) s

/-- The dealloc subview loop. -/
def releaseSubviews (fuel : Nat) (s : ViewState) (l : List Nat) :
    Option ViewState :=
  viewExec fuel (ViewCall.subs l) s

/-- UIView init (ui_view.rs): creates the layer (a CALayer, external,
here an opaque fresh id), stores it in the host object and pushes the
view onto the global views list. -/
def initView (s : ViewState) (this lyr : Nat) : Option ViewState :=
  match lookupView s this with
  | none => none
  | some v =>
      some { table := updateEntry s.table this { v with layer := lyr },
             views := s.views ++ [this] }

/-- UIView bringSubviewToFront: (ui_view.rs): moves the subview to the
end of the receiver's subviews list (the position unwrap on a missing
subview is the source panic); the sublayer operations are CALayer state,
elided, but the subview must be live for its layer borrow. -/
def bringSubviewToFront (s : ViewState) (this subview : Nat) :
    Option ViewState :=
  match lookupView s this with
  | none => none
  | some v =>
      if subview ∈ v.subviews then
        let s1 : ViewState := { s with table := updateEntry s.table this { v with subviews := (v.subviews.erase subview) ++ [subview] } }
        match lookupView s1 subview with
        | none => none
        | some _ => some s1
      else none

/-- UIView removeFromSuperview (ui_view.rs): takes (nils) the superview
field first; a nil superview is a no-op; otherwise the layer leaves its
superlayer (elided), the view is removed from the old superview's
subviews (the position unwrap is the source panic), and the view is
released. -/
def removeFromSuperview (fuel : Nat) (s : ViewState) (this : Nat) :
    Option ViewState :=
  match lookupView s this with
  | none => none
  | some v =>
      let s1 : ViewState := { s with table := updateEntry s.table this { v with superview := 0 } }
      if v.superview = 0 then some s1
      else
        match lookupView s1 v.superview with
        | none => none
        | some sup =>
            if this ∈ sup.subviews then
              let s2 : ViewState := { s1 with table := updateEntry s1.table v.superview { sup with subviews := sup.subviews.erase this } }
              releaseView fuel s2 this
            else none

/-- UIView addSubview: (ui_view.rs): nil is ignored; a view already
parented by the receiver is only brought to the front; otherwise the
view is retained, removed from its old superview, reparented to the
receiver and pushed onto the receiver's subviews (the sublayer move is
CALayer state, elided). -/
def addSubview (fuel : Nat) (s : ViewState) (this view : Nat) :
    Option ViewState :=
  if view = 0 then some s
  else
    match lookupView s view with
    | none => none
    | some vv =>
        if vv.superview = this then bringSubviewToFront s this view
        else
          match retainView s view with
          | none => none
          | some s1 =>
              match removeFromSuperview fuel s1 view with
              | none => none
              | some s2 =>
                  match lookupView s2 view with
                  | none => none
                  | some vv2 =>
                      let s3 : ViewState := { s2 with table := updateEntry s2.table view { vv2 with superview := this } }
                      match lookupView s3 this with
                      | none => none
                      | some vt =>
                          some { s3 with table := updateEntry s3.table this { vt with subviews := vt.subviews ++ [view] } }

/-- The view-hierarchy invariant of the claim, weakened below a set of
exempt parents: every live view's subviews list is duplicate-free; each
member is a live view whose superview field names the parent; a non-nil
superview names a live view, and, for parents outside the exempt set,
one whose subviews list contains the child.  The claimed invariant is
the instance with no exemptions. -/
def viewInvExcept (s : ViewState) (A : List Nat) : Prop :=
  ∀ e ∈ s.table,
    e.2.subviews.Nodup ∧
    (∀ v ∈ e.2.subviews,
      (List.lookup v s.table).map ViewObj.superview = some e.1) ∧
    (e.2.superview ≠ 0 → (List.lookup e.2.superview s.table).isSome = true) ∧
    (e.2.superview ≠ 0 → e.2.superview ∉ A →
      ((List.lookup e.2.superview s.table).map fun po =>
        decide (e.1 ∈ po.subviews)) = some true)

/-- Auxiliary view-state wellformedness: no view at the nil address and
unique table keys. -/
def viewAux (s : ViewState) : Prop :=
  (∀ e ∈ s.table, e.1 ≠ 0) ∧ (s.table.map Prod.fst).Nodup

/-- Full view-state wellformedness: the auxiliary facts plus the
unweakened hierarchy invariant. -/
def viewWf (s : ViewState) : Prop := viewAux s ∧ viewInvExcept s []

instance (s : ViewState) (A : List Nat) : Decidable (viewInvExcept s A) := by
  unfold viewInvExcept
  infer_instance

instance (s : ViewState) : Decidable (viewAux s) := by
  unfold viewAux
  infer_instance

instance (s : ViewState) : Decidable (viewWf s) := by
  unfold viewWf
  infer_instance

/-- Lookups only ever lose entries or nil superview pointers across a
release or teardown. -/
def shrinks (s s' : ViewState) : Prop :=
  ∀ k vk', List.lookup k s'.table = some vk' →
    ∃ vk, List.lookup k s.table = some vk ∧
      (vk'.superview = vk.superview ∨ vk'.superview = 0)

/-- Entries other than the released target whose superview is nil or
still live afterwards are untouched. -/
def survives (s s' : ViewState) (tgt : Nat) : Prop :=
  ∀ u vu, u ≠ tgt → List.lookup u s.table = some vu →
    (vu.superview = 0 ∨ (List.lookup vu.superview s'.table).isSome = true) →
    List.lookup u s'.table = some vu

/-- Every exempt parent is live with an already-emptied record (its
teardown is in progress further up the call stack). -/
def exemptOk (s : ViewState) (A : List Nat) : Prop :=
  ∀ y ∈ A, ∃ yo, List.lookup y s.table = some yo ∧
    yo.superview = 0 ∧ yo.subviews = []

/-- Concrete witness view state: parent 1 holds child 2. -/
def sView : ViewState :=
  { table := [(1, { refcount := 1, layer := 0, subviews := [2], superview := 0 }),
              (2, { refcount := 1, layer := 0, subviews := [], superview := 1 })],
    views := [1, 2] }

/-- What a release guarantees: wellformedness and the weakened
invariant are preserved, lookups only shrink, and untouched entries
survive. -/
def relPost (s s' : ViewState) (A : List Nat) (a : Nat) : Prop :=
  viewAux s' ∧ viewInvExcept s' A ∧ shrinks s s' ∧ survives s s' a

/-- What a dealloc guarantees additionally: the object is gone. -/
def deaPost (s s' : ViewState) (A : List Nat) (a : Nat) : Prop :=
  relPost s s' A a ∧ List.lookup a s'.table = none

/-- Precondition of the dealloc subview loop for parent x with remaining
list r: state wellformedness with x exempt, exempt records emptied, the
remaining children live and pointing at x, every pointer to x accounted
for in r, and r duplicate-free. -/
def subsPre (s : ViewState) (x : Nat) (A : List Nat) (r : List Nat) : Prop :=
  viewAux s ∧ viewInvExcept s (x :: A) ∧ exemptOk s (x :: A) ∧
  (∀ v ∈ r, (List.lookup v s.table).map ViewObj.superview = some x) ∧
  (∀ u vu, List.lookup u s.table = some vu → vu.superview = x → u ∈ r) ∧
  r.Nodup

/-- Postcondition of the dealloc subview loop: invariants kept, lookups
shrink, entries outside r survive, no pointer to x remains, and the
exempt records are intact. -/
def subsPost (s s' : ViewState) (x : Nat) (A : List Nat) (r : List Nat) : Prop :=
  viewAux s' ∧ viewInvExcept s' (x :: A) ∧ shrinks s s' ∧
  (∀ u vu, u ∉ r → List.lookup u s.table = some vu →
    (vu.superview = 0 ∨ (List.lookup vu.superview s'.table).isSome = true) →
    List.lookup u s'.table = some vu) ∧
  (∀ u vu, List.lookup u s'.table = some vu → vu.superview ≠ x) ∧
  exemptOk s' (x :: A)

/-- C1: for every allocation size s greater than zero, allocate(s) returns
an address whose every offset in the half-open interval from 0 to s admits
a successful byte read and byte write, while offset s (one past the end)
and any range outside every extant allocation fail loudly with an
out-of-bounds error (none) rather than succeeding silently. -/
theorem c1_alloc_bounds (m : GuestMem) (s : Nat) (hs : 0 < s) (hwf : memWf m)
    (m' : GuestMem) (a : Nat) (halloc : allocate m s = (m', a)) :
    (∀ off, off < s →
      (readBytes m' (a + off) 1).isSome = true ∧
      ∀ b, (writeBytes m' (a + off) [b]).isSome = true) ∧
    (readBytes m' (a + s) 1 = none ∧ ∀ b, writeBytes m' (a + s) [b] = none) ∧
    (∀ addr len, (∀ al ∈ m'.allocs, addrInAlloc al addr len = false) →
      readBytes m' addr len = none ∧
      ∀ bs : List UInt8, bs.length = len → writeBytes m' addr bs = none) := by
  have hm' : m' = (allocate m s).1 := by rw [halloc]
  have ha : a = (allocate m s).2 := by rw [halloc]
  subst hm' ha
  have hvalid1 : ∀ off, off < s →
      validRange (allocate m s).1 ((allocate m s).2 + off) 1 = true := by
    intro off hoff
    simp only [allocate, validRange, List.any_append, Bool.or_eq_true, List.any_cons,
      List.any_nil, Bool.or_false]
    right
    simp [addrInAlloc]
    omega
  have hvalid2 : validRange (allocate m s).1 ((allocate m s).2 + s) 1 = false := by
    rw [validRange, List.any_eq_false]
    intro al hal
    simp only [allocate, List.mem_append, List.mem_singleton] at hal
    rcases hal with hal | rfl
    · have hbound := hwf al hal
      simp [allocate, addrInAlloc]
      intro _ _
      omega
    · simp [allocate, addrInAlloc]
  refine ⟨?_, ⟨?_, ?_⟩, ?_⟩
  · intro off hoff
    constructor
    · simp [readBytes, hvalid1 off hoff]
    · intro b
      simp [writeBytes, hvalid1 off hoff]
  · simp [readBytes, hvalid2]
  · intro b
    simp [writeBytes, hvalid2]
  · intro addr len hout
    have hvalid : validRange (allocate m s).1 addr len = false := by
      rw [validRange, List.any_eq_false]
      intro al hal
      simp [hout al hal]
    constructor
    · simp [readBytes, hvalid]
    · intro bs hbs
      simp [writeBytes, hbs, hvalid]

/-- C1 witness: the boundary behaviour at a concrete three-byte
allocation: offset 2 is readable, offset 3 is rejected. -/
theorem c1_witness :
    (readBytes memA 2 1).isSome = true ∧ readBytes memA 3 1 = none := by
  have h := c1_alloc_bounds mem0 3 (by decide) (by decide) memA 0 (by rfl)
  exact ⟨((h.1 2 (by decide)).1), h.2.1.1⟩

/-- Reading an i32 consumes exactly one integer slot from the front. -/
theorem nextI32_consume {args : VaList} {v : Int} {a1 : VaList}
    (h : nextI32 args = some (v, a1)) :
    1 ≤ args.length ∧ a1 = args.drop 1 ∧
      (args.take 1).map VaArg.tag = [ArgTag.intTag] := by
  cases args with
  | nil => simp [nextI32] at h
  | cons a r =>
      cases a with
      | intArg b =>
          simp only [nextI32, Option.some.injEq, Prod.mk.injEq] at h
          simp [← h.2, VaArg.tag]
      | ptrArg p => simp [nextI32] at h
      | doubleArg q => simp [nextI32] at h

/-- Every branch of a conversion consumes the slots its declared tags
say, from the front of the cursor, in order. -/
theorem convOutput_consumes (nsLog : Bool) (fenv : FmtEnv) (cs : ConvSpec)
    (padWidth : Nat) (args : VaList) (outc : List UInt8) (args2 : VaList)
    (h : convOutput nsLog fenv cs padWidth args = some (outc, args2)) :
    ∃ tags, convTags nsLog cs = some tags ∧ tags.length ≤ args.length ∧
      args2 = args.drop tags.length ∧
      (args.take tags.length).map VaArg.tag = tags := by
  unfold convOutput at h
  by_cases e37 : cs.spec = 37
  · rw [if_pos e37] at h
    simp only [Option.some.injEq, Prod.mk.injEq] at h
    exact ⟨[], by simp [convTags, e37], by simp, by simp [h.2], by simp⟩
  rw [if_neg e37] at h
  by_cases epre : cs.precision.isSome = true ∧
      ¬ (cs.spec ∈ integerSpecifiers ∨ cs.spec ∈ floatSpecifiers)
  · rw [if_pos epre] at h
    exact Option.noConfusion h
  rw [if_neg epre] at h
  by_cases e99 : cs.spec = 99
  · rw [if_pos e99] at h
    by_cases elm : cs.lengthMod = true
    · rw [if_pos elm] at h
      exact Option.noConfusion h
    rw [if_neg elm] at h
    rcases args with _ | ⟨a, r⟩
    · simp [nextU8] at h
    cases a with
    | intArg b =>
        simp only [nextU8] at h
        split_ifs at h with hc
        simp only [Option.some.injEq, Prod.mk.injEq] at h
        exact ⟨[ArgTag.intTag], by simp [convTags, e37, e99], by simp,
          by simp [← h.2], by simp [VaArg.tag]⟩
    | ptrArg p => simp [nextU8] at h
    | doubleArg q => simp [nextU8] at h
  rw [if_neg e99] at h
  by_cases e67 : cs.spec = 67
  · rw [if_pos e67] at h
    by_cases elm : cs.lengthMod = true
    · rw [if_pos elm] at h
      exact Option.noConfusion h
    rw [if_neg elm] at h
    rcases args with _ | ⟨a, r⟩
    · simp [nextU16] at h
    cases a with
    | intArg b =>
        simp only [nextU16] at h
        split_ifs at h with hc hs
        simp only [Option.some.injEq, Prod.mk.injEq] at h
        exact ⟨[ArgTag.intTag], by simp [convTags, e37, e67], by simp,
          by simp [← h.2], by simp [VaArg.tag]⟩
    | ptrArg p => simp [nextU16] at h
    | doubleArg q => simp [nextU16] at h
  rw [if_neg e67] at h
  by_cases e115 : cs.spec = 115
  · rw [if_pos e115] at h
    by_cases elm : cs.lengthMod = true
    · rw [if_pos elm] at h
      exact Option.noConfusion h
    rw [if_neg elm] at h
    rcases args with _ | ⟨a, r⟩
    · simp [nextPtr] at h
    cases a with
    | intArg b => simp [nextPtr] at h
    | ptrArg p =>
        simp only [nextPtr] at h
        split_ifs at h with hc hz
        · simp only [Option.some.injEq, Prod.mk.injEq] at h
          exact ⟨[ArgTag.ptrTag], by simp [convTags, e37, e99, e67, e115],
            by simp, by simp [← h.2], by simp [VaArg.tag]⟩
        · simp only [Option.some.injEq, Prod.mk.injEq] at h
          exact ⟨[ArgTag.ptrTag], by simp [convTags, e37, e99, e67, e115],
            by simp, by simp [← h.2], by simp [VaArg.tag]⟩
    | doubleArg q => simp [nextPtr] at h
  rw [if_neg e115] at h
  by_cases ediu : cs.spec = 100 ∨ cs.spec = 105 ∨ cs.spec = 117
  · rw [if_pos ediu] at h
    rcases args with _ | ⟨a, r⟩
    · by_cases e117 : cs.spec = 117 <;>
        simp [e117, nextU32, nextI32] at h
    cases a with
    | intArg b =>
        have hdui : convTags nsLog cs = some [ArgTag.intTag] := by
          rcases ediu with e | e | e <;> simp [convTags, e37, e]
        by_cases e117 : cs.spec = 117
        · simp only [e117, if_true, nextU32, Option.map] at h
          simp only [Option.some.injEq, Prod.mk.injEq] at h
          exact ⟨[ArgTag.intTag], hdui, by simp, by simp [← h.2],
            by simp [VaArg.tag]⟩
        · simp only [e117, if_false, nextI32] at h
          simp only [Option.some.injEq, Prod.mk.injEq] at h
          exact ⟨[ArgTag.intTag], hdui, by simp, by simp [← h.2],
            by simp [VaArg.tag]⟩
    | ptrArg p =>
        by_cases e117 : cs.spec = 117 <;> simp [e117, nextU32, nextI32] at h
    | doubleArg q =>
        by_cases e117 : cs.spec = 117 <;> simp [e117, nextU32, nextI32] at h
  rw [if_neg ediu] at h
  by_cases e64 : cs.spec = 64
  · rw [if_pos e64] at h
    by_cases ens : nsLog = true
    · rw [if_pos ens] at h
      rcases args with _ | ⟨a, r⟩
      · simp [nextPtr] at h
      cases a with
      | intArg b => simp [nextPtr] at h
      | ptrArg p =>
          simp only [nextPtr] at h
          simp only [Option.some.injEq, Prod.mk.injEq] at h
          exact ⟨[ArgTag.ptrTag],
            by simp [convTags, e37, e99, e67, e115, ediu, e64, ens],
            by simp, by simp [← h.2], by simp [VaArg.tag]⟩
      | doubleArg q => simp [nextPtr] at h
    · rw [if_neg ens] at h
      exact Option.noConfusion h
  rw [if_neg e64] at h
  by_cases e120 : cs.spec = 120
  · rw [if_pos e120] at h
    rcases args with _ | ⟨a, r⟩
    · simp [nextU32] at h
    cases a with
    | intArg b =>
        simp only [nextU32] at h
        simp only [Option.some.injEq, Prod.mk.injEq] at h
        exact ⟨[ArgTag.intTag], by simp [convTags, e37, e120], by simp,
          by simp [← h.2], by simp [VaArg.tag]⟩
    | ptrArg p => simp [nextU32] at h
    | doubleArg q => simp [nextU32] at h
  rw [if_neg e120] at h
  by_cases e88 : cs.spec = 88
  · rw [if_pos e88] at h
    rcases args with _ | ⟨a, r⟩
    · simp [nextU32] at h
    cases a with
    | intArg b =>
        simp only [nextU32] at h
        simp only [Option.some.injEq, Prod.mk.injEq] at h
        exact ⟨[ArgTag.intTag], by simp [convTags, e37, e88], by simp,
          by simp [← h.2], by simp [VaArg.tag]⟩
    | ptrArg p => simp [nextU32] at h
    | doubleArg q => simp [nextU32] at h
  rw [if_neg e88] at h
  by_cases e112 : cs.spec = 112
  · rw [if_pos e112] at h
    by_cases elm : cs.lengthMod = true
    · rw [if_pos elm] at h
      exact Option.noConfusion h
    rw [if_neg elm] at h
    rcases args with _ | ⟨a, r⟩
    · simp [nextPtr] at h
    cases a with
    | intArg b => simp [nextPtr] at h
    | ptrArg p =>
        simp only [nextPtr] at h
        simp only [Option.some.injEq, Prod.mk.injEq] at h
        exact ⟨[ArgTag.ptrTag],
          by simp [convTags, e37, e99, e67, e115, ediu, e64, e112],
          by simp, by simp [← h.2], by simp [VaArg.tag]⟩
    | doubleArg q => simp [nextPtr] at h
  rw [if_neg e112] at h
  by_cases e102 : cs.spec = 102
  · rw [if_pos e102] at h
    rcases args with _ | ⟨a, r⟩
    · simp [nextF64] at h
    cases a with
    | intArg b => simp [nextF64] at h
    | ptrArg p => simp [nextF64] at h
    | doubleArg q =>
        simp only [nextF64] at h
        simp only [Option.some.injEq, Prod.mk.injEq] at h
        exact ⟨[ArgTag.doubleTag], by simp [convTags, e37, e99, e67, e115,
          ediu, e64, e120, e88, e112, e102], by simp, by simp [← h.2],
          by simp [VaArg.tag]⟩
  rw [if_neg e102] at h
  by_cases e101 : cs.spec = 101
  · rw [if_pos e101] at h
    rcases args with _ | ⟨a, r⟩
    · simp [nextF64] at h
    cases a with
    | intArg b => simp [nextF64] at h
    | ptrArg p => simp [nextF64] at h
    | doubleArg q =>
        simp only [nextF64] at h
        simp only [Option.some.injEq, Prod.mk.injEq] at h
        exact ⟨[ArgTag.doubleTag], by simp [convTags, e37, e99, e67, e115,
          ediu, e64, e120, e88, e112, e102, e101], by simp, by simp [← h.2],
          by simp [VaArg.tag]⟩
  rw [if_neg e101] at h
  by_cases e103 : cs.spec = 103
  · rw [if_pos e103] at h
    rcases args with _ | ⟨a, r⟩
    · simp [nextF64] at h
    cases a with
    | intArg b => simp [nextF64] at h
    | ptrArg p => simp [nextF64] at h
    | doubleArg q =>
        simp only [nextF64] at h
        simp only [Option.some.injEq, Prod.mk.injEq] at h
        exact ⟨[ArgTag.doubleTag], by simp [convTags, e37, e99, e67, e115,
          ediu, e64, e120, e88, e112, e102, e101, e103], by simp,
          by simp [← h.2], by simp [VaArg.tag]⟩
  rw [if_neg e103] at h
  exact Option.noConfusion h

/-- Dropping then dropping again composes consumption counts, and the
consumed prefixes append; used to chain cursor reads. -/
theorem consume_append {args mid fin : VaList} {t1 t2 : List ArgTag}
    (h1 : t1.length ≤ args.length ∧ mid = args.drop t1.length ∧
      (args.take t1.length).map VaArg.tag = t1)
    (h2 : t2.length ≤ mid.length ∧ fin = mid.drop t2.length ∧
      (mid.take t2.length).map VaArg.tag = t2) :
    (t1 ++ t2).length ≤ args.length ∧ fin = args.drop (t1 ++ t2).length ∧
      (args.take (t1 ++ t2).length).map VaArg.tag = t1 ++ t2 := by
  obtain ⟨hl1, hm, ht1⟩ := h1
  obtain ⟨hl2, hf, ht2⟩ := h2
  subst hm hf
  rw [List.length_drop] at hl2
  refine ⟨by simp; omega, ?_, ?_⟩
  · rw [List.drop_drop, List.length_append]
  · rw [List.length_append, List.take_add, List.map_append, ht1, ht2]

/-- C4: printf_inner consumes the variadic cursor strictly in the order
the conversion specifiers appear in the format string: whenever it
succeeds, the remaining cursor is a suffix (drop) of the packed argument
list, and the consumed prefix carries exactly the declared argument types
in order of appearance, one cursor read per conversion specifier plus one
preceding int read for a star pad width, with no reordering or
rewinding. -/
theorem c4_cursor_order (nsLog : Bool) (fenv : FmtEnv) :
    ∀ (fuel : Nat) (fmt : List UInt8) (args : VaList) (out : List UInt8)
      (rem : VaList),
      printfInner nsLog fenv fuel fmt args = some (out, rem) →
      ∃ tags, specTags nsLog fuel fmt = some tags ∧
        tags.length ≤ args.length ∧ rem = args.drop tags.length ∧
        (args.take tags.length).map VaArg.tag = tags := by
  intro fuel
  induction fuel with
  | zero =>
      intro fmt args out rem h
      simp [printfInner] at h
  | succ fuel ih =>
      intro fmt args out rem h
      cases fmt with
      | nil =>
          simp only [printfInner, Option.some.injEq, Prod.mk.injEq] at h
          exact ⟨[], by simp [specTags], by simp, by simp [← h.2], by simp⟩
      | cons c rest =>
          by_cases hc : c = 37
          · subst hc
            unfold printfInner at h
            rw [if_neg (by simp)] at h
            cases hp : parseConv rest with
            | none =>
                rw [hp] at h
                exact Option.noConfusion h
            | some pr =>
                obtain ⟨cs, rest1⟩ := pr
                rw [hp] at h
                dsimp only at h
                by_cases hstar : cs.starWidth = true
                · rw [if_pos hstar] at h
                  cases hw : nextI32 args with
                  | none =>
                      rw [hw] at h
                      exact Option.noConfusion h
                  | some pw =>
                      obtain ⟨w, args1⟩ := pw
                      rw [hw] at h
                      dsimp only at h
                      by_cases hneg : w < 0
                      · rw [if_pos hneg] at h
                        exact Option.noConfusion h
                      rw [if_neg hneg] at h
                      dsimp only at h
                      cases hco : convOutput nsLog fenv cs w.toNat args1 with
                      | none =>
                          rw [hco] at h
                          exact Option.noConfusion h
                      | some pc =>
                          obtain ⟨outc, args2⟩ := pc
                          rw [hco] at h
                          dsimp only at h
                          cases hrec : printfInner nsLog fenv fuel rest1 args2 with
                          | none =>
                              rw [hrec] at h
                              exact Option.noConfusion h
                          | some pr2 =>
                              obtain ⟨out2, rem2⟩ := pr2
                              rw [hrec] at h
                              simp only [Option.some.injEq, Prod.mk.injEq] at h
                              obtain ⟨tagsC, hct, hcc⟩ :=
                                convOutput_consumes nsLog fenv cs w.toNat args1
                                  outc args2 hco
                              obtain ⟨tagsR, hst, hrc⟩ := ih rest1 args2 out2 rem2 hrec
                              have hstarc := nextI32_consume hw
                              have comb1 :=
                                @consume_append _ _ _ [ArgTag.intTag] tagsC
                                  ⟨by simpa using hstarc.1, hstarc.2.1, hstarc.2.2⟩ hcc
                              have comb2 := consume_append comb1 hrc
                              refine ⟨[ArgTag.intTag] ++ tagsC ++ tagsR, ?_, ?_, ?_, ?_⟩
                              · simp [specTags, hp, hstar, hct, hst]
                              · simpa [List.append_assoc] using comb2.1
                              · rw [← h.2]
                                simpa [List.append_assoc] using comb2.2.1
                              · simpa [List.append_assoc] using comb2.2.2
                · rw [if_neg hstar] at h
                  dsimp only at h
                  cases hco : convOutput nsLog fenv cs cs.litWidth args with
                  | none =>
                      rw [hco] at h
                      exact Option.noConfusion h
                  | some pc =>
                      obtain ⟨outc, args2⟩ := pc
                      rw [hco] at h
                      dsimp only at h
                      cases hrec : printfInner nsLog fenv fuel rest1 args2 with
                      | none =>
                          rw [hrec] at h
                          exact Option.noConfusion h
                      | some pr2 =>
                          obtain ⟨out2, rem2⟩ := pr2
                          rw [hrec] at h
                          simp only [Option.some.injEq, Prod.mk.injEq] at h
                          obtain ⟨tagsC, hct, hcc⟩ :=
                            convOutput_consumes nsLog fenv cs cs.litWidth args
                              outc args2 hco
                          obtain ⟨tagsR, hst, hrc⟩ := ih rest1 args2 out2 rem2 hrec
                          have comb2 := consume_append hcc hrc
                          refine ⟨tagsC ++ tagsR, ?_, comb2.1, ?_, comb2.2.2⟩
                          · simp [specTags, hp, hstar, hct, hst]
                          · rw [← h.2]
                            exact comb2.2.1
          · unfold printfInner at h
            rw [if_pos (by simpa using hc)] at h
            cases hrec : printfInner nsLog fenv fuel rest args with
            | none =>
                rw [hrec] at h
                exact Option.noConfusion h
            | some pr2 =>
                obtain ⟨out2, rem2⟩ := pr2
                rw [hrec] at h
                simp only [Option.some.injEq, Prod.mk.injEq] at h
                obtain ⟨tags, hst, hlen, hdrop, htake⟩ := ih rest args out2 rem2 hrec
                exact ⟨tags, by simpa [specTags, hc] using hst, hlen,
                  h.2 ▸ hdrop, htake⟩

/-- Looking up a key in a list filtered to exclude that key finds
nothing. -/
theorem lookup_filter_self {β : Type} (l : List (Nat × β)) (a : Nat) :
    List.lookup a (l.filter fun e => ¬ e.1 = a) = none := by
  induction l with
  | nil => rfl
  | cons e l ih =>
      obtain ⟨k, v⟩ := e
      by_cases h : k = a
      · simpa [List.filter_cons, h] using ih
      · have hba : (a == k) = false := beq_false_of_ne fun he => h he.symm
        rw [List.filter_cons, if_pos (by simpa using h)]
        simp only [List.lookup]
        rw [hba]
        exact ih

/-- C10: AudioComponentInstanceDispose with a null instance returns -50
and leaves the instance table and guest memory unchanged; with a non-null
live instance it removes that instance's table entry, frees its guest
allocation, and returns 0. -/
theorem c10_dispose_behaviour (s : AudioState) (a : Nat)
    (hnz : a ≠ 0)
    (hlive : (s.mem.allocs.any fun al => al.live && decide (al.base = a)) = true) :
    audioComponentInstanceDispose s 0 = some (s, -50) ∧
    ∃ s', audioComponentInstanceDispose s a = some (s', 0) ∧
      List.lookup a s'.instances = none ∧
      ∀ al ∈ s'.mem.allocs, al.base = a → al.live = false := by
  refine ⟨rfl, ?_⟩
  refine ⟨{ instances := s.instances.filter fun e => ¬ e.1 = a,
            mem := { s.mem with allocs := s.mem.allocs.map fun al =>
              if al.live && decide (al.base = a) then { al with live := false } else al } },
          ?_, ?_, ?_⟩
  · simp [audioComponentInstanceDispose, hnz, memFree, hlive]
  · exact lookup_filter_self _ _
  · intro al hal hbase
    simp only [List.mem_map] at hal
    obtain ⟨al0, hal0, heq⟩ := hal
    by_cases hl : al0.live && decide (al0.base = a)
    · rw [← heq]
      simp [hl]
    · rw [← heq] at hbase ⊢
      rw [if_neg hl] at hbase ⊢
      rcases Bool.eq_false_or_eq_true al0.live with h | h
      · exact absurd (by simp [h, hbase]) hl
      · exact h

/-- C10 witness: disposing the concrete live instance at address 4
removes it and frees its allocation, and the null dispose returns -50. -/
theorem c10_witness :
    audioComponentInstanceDispose audioState1 0 = some (audioState1, -50) ∧
    ∃ s', audioComponentInstanceDispose audioState1 4 = some (s', 0) ∧
      List.lookup 4 s'.instances = none ∧
      ∀ al ∈ s'.mem.allocs, al.base = 4 → al.live = false :=
  c10_dispose_behaviour audioState1 4 (by decide) (by decide)

/-- C4 witness: the cursor-order test of the spec at a concrete call
site packing (int 3, C string at 100 holding ok, double 1.5) against the
format percent-d space percent-s space percent-f: all three slots are
consumed, in call-site order, with the declared types int, pointer,
double. -/
theorem c4_witness :
    ∃ tags, specTags false 9 fmtEx = some tags ∧
      tags.length ≤ argsEx.length ∧ ([] : VaList) = argsEx.drop tags.length ∧
      (argsEx.take tags.length).map VaArg.tag = tags :=
  c4_cursor_order false fenvEx 9 fmtEx argsEx
    [51, 32, 111, 107, 32, 49, 46, 53, 48, 48, 48, 48, 48] [] (by decide)

/-- C9: vsnprintf with a buffer size n of at least one byte writes at
most n bytes, namely the first min(L, n - 1) bytes of the formatted
output followed by a NUL terminator, so the destination is always
NUL-terminated, and it returns the untruncated length L rather than the
number of bytes written; snprintf delegates to vsnprintf. -/
theorem c9_vsnprintf_truncation (fenv : FmtEnv) (n : Nat) (fmt : List UInt8)
    (args : VaList) (res : List UInt8) (rem : VaList)
    (hn1 : 1 ≤ n) (hn2 : n < 4294967296)
    (hrun : printfInner false fenv (fmt.length + 1) fmt args = some (res, rem))
    (hlen : res.length ≤ 2147483647) :
    vsnprintfModel fenv n fmt args =
      some (res.take (min res.length (n - 1)) ++ [0], (res.length : Int)) ∧
    (res.take (min res.length (n - 1)) ++ [0]).length ≤ n ∧
    (res.take (min res.length (n - 1)) ++ [0]).getLast? = some 0 ∧
    snprintfModel fenv n fmt args = vsnprintfModel fenv n fmt args := by
  have hm : (n + 4294967295) % 4294967296 = n - 1 := by omega
  refine ⟨?_, ?_, ?_, rfl⟩
  · unfold vsnprintfModel
    rw [hrun]
    dsimp only
    rw [hm]
    by_cases hcase : n - 1 < res.length
    · have hmin : min res.length (n - 1) = n - 1 := by omega
      rw [if_pos hcase, hmin]
      have hlt : (res.take (n - 1)).length = n - 1 := by
        rw [List.length_take]
        omega
      have hc1 : ¬ n < (res.take (n - 1)).length + 1 := by
        rw [hlt]
        omega
      rw [if_neg hc1, if_neg (by omega : ¬ 2147483647 < res.length)]
    · have hmin : min res.length (n - 1) = res.length := by omega
      rw [if_neg hcase, hmin, List.take_length]
      have hc1 : ¬ n < res.length + 1 := by omega
      rw [if_neg hc1, if_neg (by omega : ¬ 2147483647 < res.length)]
  · have h1 : (res.take (min res.length (n - 1))).length = min res.length (n - 1) := by
      rw [List.length_take]
      omega
    simp only [List.length_append, List.length_singleton, h1]
    omega
  · exact List.getLast?_concat _

/-- C9 witness: formatting hi percent-d with argument 7 into a four-byte
buffer writes the three bytes hi-space followed by NUL and returns the
untruncated length 4. -/
theorem c9_witness :
    vsnprintfModel fenvEx 4 [104, 105, 32, 37, 100] [VaArg.intArg 7] =
      some (([104, 105, 32, 55] : List UInt8).take
        (min ([104, 105, 32, 55] : List UInt8).length (4 - 1)) ++ [0],
        (([104, 105, 32, 55] : List UInt8).length : Int)) ∧
    (([104, 105, 32, 55] : List UInt8).take
      (min ([104, 105, 32, 55] : List UInt8).length (4 - 1)) ++ [0]).length ≤ 4 ∧
    (([104, 105, 32, 55] : List UInt8).take
      (min ([104, 105, 32, 55] : List UInt8).length (4 - 1)) ++
        [0]).getLast? = some 0 ∧
    snprintfModel fenvEx 4 [104, 105, 32, 37, 100] [VaArg.intArg 7] =
      vsnprintfModel fenvEx 4 [104, 105, 32, 37, 100] [VaArg.intArg 7] :=
  c9_vsnprintf_truncation fenvEx 4 [104, 105, 32, 37, 100] [VaArg.intArg 7]
    [104, 105, 32, 55] [] (by decide) (by decide) (by decide) (by decide)

/-- The wellformedness fact extracted from the Boolean arena check. -/
theorem wfClasses_spec {ct : ClassTable} (h : wfClasses ct = true)
    {i : Nat} {d : ClassDesc} (hd : ct[i]? = some d) {p : Nat}
    (hp : d.superclass = some p) : p < i := by
  have hi : i < ct.length := by
    by_contra hge
    rw [List.getElem?_eq_none (by omega)] at hd
    exact Option.noConfusion hd
  have hall := List.all_eq_true.mp h i (List.mem_range.mpr hi)
  simp only [hd] at hall
  simp only [hp] at hall
  exact of_decide_eq_true hall

/-- Under a wellformed arena, the fuelled subclass walk agrees with
membership in the fuelled ancestor chain, for any sufficient fuel. -/
theorem isSubclass_iff_mem_chain {ct : ClassTable} (hwf : wfClasses ct = true) :
    ∀ c, c < ct.length → ∀ fuel, c + 1 ≤ fuel → ∀ d,
      (isSubclassOfFuel ct fuel c d = true ↔ d ∈ ancestorChainFuel ct fuel c) := by
  intro c
  induction c using Nat.strong_induction_on with
  | _ c ih =>
      intro hc fuel hfuel d
      cases fuel with
      | zero => omega
      | succ f =>
          by_cases hcd : c = d
          · subst hcd
            simp [isSubclassOfFuel, ancestorChainFuel]
          · have hget : ct[c]? = some ct[c] := List.getElem?_eq_getElem hc
            simp only [isSubclassOfFuel, ancestorChainFuel, hget, if_neg hcd]
            cases hsup : ct[c].superclass with
            | none =>
                simp only [hsup]
                simp only [List.mem_cons, List.not_mem_nil, or_false]
                constructor
                · intro hfalse
                  exact Bool.noConfusion hfalse
                · intro hdc
                  exact absurd hdc.symm hcd
            | some p =>
                have hp : p < c := wfClasses_spec hwf hget hsup
                have hrec := ih p hp (by omega) f (by omega) d
                simp only [List.mem_cons, hrec]
                constructor
                · exact fun hm => Or.inr hm
                · rintro (hm | hm)
                  · exact absurd hm.symm hcd
                  · exact hm

/-- C6: isKindOfClass reads the receiver's class and walks the ancestor
chain: it is true exactly for the classes on that chain, so true for the
chain's root and false for any class not on the chain. -/
theorem c6_is_kind_of (s : ObjcState) (this c cls : Nat)
    (hwf : wfClasses s.classes = true)
    (hisa : readIsa s this = some c) (hc : c < s.classes.length) :
    nsIsKindOfClass s this cls = some (s, classIsSubclassOf s.classes c cls) ∧
    (classIsSubclassOf s.classes c cls = true ↔
      cls ∈ ancestorChain s.classes c) := by
  constructor
  · simp [nsIsKindOfClass, nsClassOf, hisa]
  · exact isSubclass_iff_mem_chain hwf c hc (s.classes.length + 1) (by omega) cls

/-- C6 witness: in the four-class arena the leaf instance is a kind of
the root class 0 (on its chain 2, 1, 0) and not a kind of the unrelated
class 3. -/
theorem c6_witness :
    (nsIsKindOfClass sCls 8 0 = some (sCls, classIsSubclassOf sCls.classes 2 0) ∧
      (classIsSubclassOf sCls.classes 2 0 = true ↔
        0 ∈ ancestorChain sCls.classes 2)) ∧
    classIsSubclassOf sCls.classes 2 0 = true ∧
    classIsSubclassOf sCls.classes 2 3 = false ∧
    ancestorChain sCls.classes 2 = [2, 1, 0] :=
  ⟨c6_is_kind_of sCls 8 2 0 (by decide) (by decide) (by decide),
   by decide, by decide, by decide⟩

/-- C7: the reflection-style queries of NSObject, class membership,
subclass test, selector response and protocol conformance, are pure
lookups: whenever they return, the runtime state they return is the one
they were given, unchanged. -/
theorem c7_reflection_pure :
    (∀ s this cls s' b,
      nsIsMemberOfClass s this cls = some (s', b) → s' = s) ∧
    (∀ s this cls s' b,
      nsIsKindOfClass s this cls = some (s', b) → s' = s) ∧
    (∀ s this sel s' b,
      nsRespondsToSelector s this sel = some (s', b) → s' = s) ∧
    (∀ s this p s' b,
      nsConformsToProtocol s this p = some (s', b) → s' = s) := by
  refine ⟨?_, ?_, ?_, ?_⟩
  · intro s this x s' b h
    simp only [nsIsMemberOfClass, nsClassOf] at h
    cases hisa : readIsa s this with
    | none =>
        rw [hisa] at h
        exact Option.noConfusion h
    | some c =>
        rw [hisa] at h
        simp only [Option.map_some', Option.some.injEq, Prod.mk.injEq] at h
        exact h.1.symm
  · intro s this x s' b h
    simp only [nsIsKindOfClass, nsClassOf] at h
    cases hisa : readIsa s this with
    | none =>
        rw [hisa] at h
        exact Option.noConfusion h
    | some c =>
        rw [hisa] at h
        simp only [Option.map_some', Option.some.injEq, Prod.mk.injEq] at h
        exact h.1.symm
  · intro s this x s' b h
    simp only [nsRespondsToSelector, nsClassOf] at h
    cases hisa : readIsa s this with
    | none =>
        rw [hisa] at h
        exact Option.noConfusion h
    | some c =>
        rw [hisa] at h
        simp only [Option.map_some', Option.some.injEq, Prod.mk.injEq] at h
        exact h.1.symm
  · intro s this x s' b h
    simp only [nsConformsToProtocol, nsClassOf] at h
    cases hisa : readIsa s this with
    | none =>
        rw [hisa] at h
        exact Option.noConfusion h
    | some c =>
        rw [hisa] at h
        simp only [Option.map_some', Option.some.injEq, Prod.mk.injEq] at h
        exact h.1.symm

/-- C7 witness: the four queries on the concrete leaf instance return
with the state handed back unchanged. -/
theorem c7_witness :
    (sCls = sCls ∧ sCls = sCls ∧ sCls = sCls ∧ sCls = sCls) ∧
    nsIsMemberOfClass sCls 8 2 = some (sCls, true) ∧
    nsIsKindOfClass sCls 8 3 = some (sCls, false) ∧
    nsRespondsToSelector sCls 8 fooKey = some (sCls, false) ∧
    nsConformsToProtocol sCls 8 0 = some (sCls, false) :=
  ⟨⟨c7_reflection_pure.1 sCls 8 2 sCls true (by decide),
    c7_reflection_pure.2.1 sCls 8 3 sCls false (by decide),
    c7_reflection_pure.2.2.1 sCls 8 fooKey sCls false (by decide),
    c7_reflection_pure.2.2.2 sCls 8 0 sCls false (by decide)⟩,
   by decide, by decide, by decide, by decide⟩

/-- C5 counterexample: in the concrete runtime whose class has only the
underscore setter, the synthesized accessor setFoo-colon is absent, yet
setValue does not fail with the unhandled-key condition: it dispatches to
the underscore variant, refuting the claim that the operation fails
whenever the synthesized set accessor does not exist. -/
theorem c5_counterexample :
    classHasMethod sKvc.classes 0 setFooSel = false ∧
    readIsa sKvc 8 = some 0 ∧
    setSelName fooKey = some setFooSel ∧
    nsSetValueForKey sKvc 8 fooKey = some (KvcResult.dispatched uSetFooSel) ∧
    ¬ nsSetValueForKey sKvc 8 fooKey = some KvcResult.unhandledKey := by
  refine ⟨by decide, by decide, by decide, by decide, ?_⟩
  intro hcontra
  have : KvcResult.dispatched uSetFooSel = KvcResult.unhandledKey := by
    have h1 : nsSetValueForKey sKvc 8 fooKey =
        some (KvcResult.dispatched uSetFooSel) := by decide
    rw [h1] at hcontra
    exact Option.some.inj hcontra
  exact KvcResult.noConfusion this

/-- C5 amended: setValue synthesizes the set accessor (set, key with its
first character uppercased, colon) and dispatches to it when the
receiver's class has it; otherwise it tries the underscore-prefixed
variant the same way; only when neither synthesized accessor is
registered and implemented does it fail with the unhandled-key
condition.  valueForKey uses the key itself as the getter selector,
dispatching when the class implements it with a supported return type,
and fails with the unhandled-key condition when no such accessor
exists. -/
theorem c5_kvc_accessors :
    (∀ s this key cls n1,
      (key.all fun c => c.toNat ≤ 127) = true →
      readIsa s this = some cls →
      setSelName key = some n1 →
      n1 ∈ s.selectors →
      classHasMethod s.classes cls n1 = true →
      nsSetValueForKey s this key = some (KvcResult.dispatched n1)) ∧
    (∀ s this key cls n1 n2,
      (key.all fun c => c.toNat ≤ 127) = true →
      readIsa s this = some cls →
      setSelName key = some n1 →
      underscoreSetSelName key = some n2 →
      ¬ (n1 ∈ s.selectors ∧ classHasMethod s.classes cls n1 = true) →
      n2 ∈ s.selectors →
      classHasMethod s.classes cls n2 = true →
      nsSetValueForKey s this key = some (KvcResult.dispatched n2)) ∧
    (∀ s this key cls n1 n2,
      (key.all fun c => c.toNat ≤ 127) = true →
      readIsa s this = some cls →
      setSelName key = some n1 →
      underscoreSetSelName key = some n2 →
      ¬ (n1 ∈ s.selectors ∧ classHasMethod s.classes cls n1 = true) →
      ¬ (n2 ∈ s.selectors ∧ classHasMethod s.classes cls n2 = true) →
      nsSetValueForKey s this key = some KvcResult.unhandledKey) ∧
    (∀ s this key cls t,
      readIsa s this = some cls →
      key ∈ s.selectors →
      lookupMethod s.classes cls key = some t →
      (t = 64 ∨ t = 105) →
      nsValueForKey s this key = some (KvcResult.dispatched key)) ∧
    (∀ s this key cls,
      readIsa s this = some cls →
      (key ∉ s.selectors ∨ lookupMethod s.classes cls key = none) →
      nsValueForKey s this key = some KvcResult.unhandledKey) := by
  refine ⟨?_, ?_, ?_, ?_, ?_⟩
  · intro s this key cls n1 hascii hisa hn1 hsel hm
    simp only [nsSetValueForKey, hascii, hisa, hn1]
    rw [if_neg (by simp)]
    simp only [lookupSelector, if_pos hsel, hm, if_pos]
  · intro s this key cls n1 n2 hascii hisa hn1 hn2 hmiss hsel2 hm2
    simp only [nsSetValueForKey, hascii, hisa, hn1]
    rw [if_neg (by simp)]
    have hund : nsSetValueUnderscore s cls key =
        some (KvcResult.dispatched n2) := by
      simp only [nsSetValueUnderscore, hn2, lookupSelector, if_pos hsel2, hm2,
        if_pos]
    by_cases hsel1 : n1 ∈ s.selectors
    · simp only [lookupSelector, if_pos hsel1]
      have hm1 : classHasMethod s.classes cls n1 = false := by
        rcases Bool.eq_false_or_eq_true (classHasMethod s.classes cls n1) with
          ht | hf
        · exact absurd ⟨hsel1, ht⟩ hmiss
        · exact hf
      rw [hm1]
      simp only [Bool.false_eq_true, if_false]
      exact hund
    · simp only [lookupSelector, if_neg hsel1]
      exact hund
  · intro s this key cls n1 n2 hascii hisa hn1 hn2 hmiss1 hmiss2
    simp only [nsSetValueForKey, hascii, hisa, hn1]
    rw [if_neg (by simp)]
    have hund : nsSetValueUnderscore s cls key = some KvcResult.unhandledKey := by
      simp only [nsSetValueUnderscore, hn2]
      by_cases hsel2 : n2 ∈ s.selectors
      · simp only [lookupSelector, if_pos hsel2]
        have hm2 : classHasMethod s.classes cls n2 = false := by
          rcases Bool.eq_false_or_eq_true (classHasMethod s.classes cls n2) with
            ht | hf
          · exact absurd ⟨hsel2, ht⟩ hmiss2
          · exact hf
        rw [hm2]
        simp only [Bool.false_eq_true, if_false]
      · simp only [lookupSelector, if_neg hsel2]
    by_cases hsel1 : n1 ∈ s.selectors
    · simp only [lookupSelector, if_pos hsel1]
      have hm1 : classHasMethod s.classes cls n1 = false := by
        rcases Bool.eq_false_or_eq_true (classHasMethod s.classes cls n1) with
          ht | hf
        · exact absurd ⟨hsel1, ht⟩ hmiss1
        · exact hf
      rw [hm1]
      simp only [Bool.false_eq_true, if_false]
      exact hund
    · simp only [lookupSelector, if_neg hsel1]
      exact hund
  · intro s this key cls t hisa hsel hmt ht
    simp only [nsValueForKey, hisa, lookupSelector, if_pos hsel, hmt]
    rcases ht with h64 | h105
    · subst h64
      rfl
    · subst h105
      rfl
  · intro s this key cls hisa hmiss
    simp only [nsValueForKey, hisa]
    rcases hmiss with hnosel | hnometh
    · simp only [lookupSelector, if_neg hnosel]
    · by_cases hsel : key ∈ s.selectors
      · simp only [lookupSelector, if_pos hsel, hnometh]
      · simp only [lookupSelector, if_neg hsel]

/-- C5 witness: the amended behaviour at the concrete counterexample
state (underscore dispatch) and at a getter-free state (unhandled
key). -/
theorem c5_witness :
    nsSetValueForKey sKvc 8 fooKey = some (KvcResult.dispatched uSetFooSel) ∧
    nsValueForKey sKvc 8 fooKey = some KvcResult.unhandledKey :=
  ⟨c5_kvc_accessors.2.1 sKvc 8 fooKey 0 setFooSel uSetFooSel (by decide)
      (by decide) (by decide) (by decide)
      (by decide)
      (by decide) (by decide),
   c5_kvc_accessors.2.2.2.2 sKvc 8 fooKey 0 (by decide) (Or.inl (by decide))⟩

/-- A successful lookup names an entry of the list. -/
theorem lookup_mem {l : List (Nat × ObjcObj)} {a : Nat} {o : ObjcObj}
    (h : List.lookup a l = some o) : (a, o) ∈ l := by
  induction l with
  | nil => simp [List.lookup] at h
  | cons e r ih =>
      obtain ⟨k, v⟩ := e
      by_cases hk : a = k
      · subst hk
        simp only [List.lookup, beq_self_eq_true, Option.some.injEq] at h
        subst h
        exact List.mem_cons_self _ _
      · have hba : (a == k) = false := beq_false_of_ne hk
        simp only [List.lookup, hba] at h
        exact List.mem_cons_of_mem _ (ih h)

/-- Updating a key that was present and looking it up again yields the
new object. -/
theorem lookup_updateObj_self {l : List (Nat × ObjcObj)} {a : Nat}
    {o0 o : ObjcObj} (h : List.lookup a l = some o0) :
    List.lookup a (updateObj l a o) = some o := by
  induction l with
  | nil => simp [List.lookup] at h
  | cons e r ih =>
      obtain ⟨k, v⟩ := e
      by_cases hk : k = a
      · subst hk
        simp only [updateObj, List.map_cons, if_pos rfl]
        simp [List.lookup]
      · have hba : (a == k) = false := beq_false_of_ne fun x => hk x.symm
        simp only [List.lookup, hba] at h
        simp only [updateObj, List.map_cons, if_neg hk]
        simp only [List.lookup, hba]
        exact ih h

/-- Updating preserves the key list. -/
theorem keys_updateObj (l : List (Nat × ObjcObj)) (a : Nat) (o : ObjcObj) :
    (updateObj l a o).map Prod.fst = l.map Prod.fst := by
  induction l with
  | nil => rfl
  | cons e r ih =>
      simp only [updateObj, List.map_cons] at *
      by_cases hk : e.1 = a
      · rw [if_pos hk]
        simp only [List.map_cons, ih]
        rw [← hk]
      · rw [if_neg hk]
        simp only [List.map_cons, ih]

/-- Entries of an update are the new pair or untouched old entries with
another key. -/
theorem mem_updateObj {l : List (Nat × ObjcObj)} {a : Nat} {o : ObjcObj}
    {e : Nat × ObjcObj} (h : e ∈ updateObj l a o) :
    e = (a, o) ∨ (e ∈ l ∧ e.1 ≠ a) := by
  simp only [updateObj, List.mem_map] at h
  obtain ⟨e0, he0, heq⟩ := h
  by_cases hk : e0.1 = a
  · rw [if_pos hk] at heq
    exact Or.inl heq.symm
  · rw [if_neg hk] at heq
    subst heq
    exact Or.inr ⟨he0, hk⟩

/-- Freeing an address leaves every allocation at that base dead. -/
theorem memFree_not_live {m m' : GuestMem} {a : Nat}
    (h : memFree m a = some m') :
    ∀ al ∈ m'.allocs, al.base = a → al.live = false := by
  unfold memFree at h
  split_ifs at h with hlive
  simp only [Option.some.injEq] at h
  subst h
  intro al hal hbase
  simp only [List.mem_map] at hal
  obtain ⟨al0, hal0, heq⟩ := hal
  by_cases hl : (al0.live && decide (al0.base = a)) = true
  · rw [← heq]
    simp [hl]
  · rw [← heq] at hbase ⊢
    rw [if_neg hl] at hbase ⊢
    rcases Bool.eq_false_or_eq_true al0.live with ht | hf
    · exact absurd (by simp [ht, hbase]) hl
    · exact hf

/-- Freeing one base does not kill live allocations at other bases. -/
theorem memFree_other {m m' : GuestMem} {a : Nat} (h : memFree m a = some m') :
    ∀ b, b ≠ a →
      (m.allocs.any fun al => al.live && decide (al.base = b)) = true →
      (m'.allocs.any fun al => al.live && decide (al.base = b)) = true := by
  unfold memFree at h
  split_ifs at h with hlive
  simp only [Option.some.injEq] at h
  subst h
  intro b hb hany
  rw [List.any_eq_true] at hany ⊢
  obtain ⟨al, hal, hcond⟩ := hany
  have hba : al.base = b := by
    simp only [Bool.and_eq_true, decide_eq_true_eq] at hcond
    exact hcond.2
  refine ⟨if al.live && decide (al.base = a) then { al with live := false }
    else al, List.mem_map_of_mem _ hal, ?_⟩
  have hnot : ¬ (al.live && decide (al.base = a)) = true := by
    simp only [Bool.and_eq_true, decide_eq_true_eq]
    rintro ⟨_, hbase⟩
    exact hb (hba ▸ hbase)
  rw [if_neg hnot]
  exact hcond

/-- Retain preserves the object-runtime invariant. -/
theorem objcWf_retain {s : ObjcState} {a : Nat} {p : ObjcState × Nat}
    (hwf : objcWf s) (h : nsRetain s a = some p) : objcWf p.1 := by
  obtain ⟨hnd, hcnt, hmem, hlog, hlnd⟩ := hwf
  simp only [nsRetain, incRefcount] at h
  cases hlook : lookupObj s a with
  | none =>
      rw [hlook] at h
      exact Option.noConfusion h
  | some o =>
      rw [hlook] at h
      simp only [Option.map_some', Option.some.injEq] at h
      subst h
      dsimp only
      have hao : (a, o) ∈ s.objects := lookup_mem hlook
      refine ⟨?_, ?_, ?_, ?_, hlnd⟩
      · rw [keys_updateObj]
        exact hnd
      · intro e he
        rcases mem_updateObj he with rfl | ⟨hein, _⟩
        · have := hcnt _ hao
          simp only at this ⊢
          omega
        · exact hcnt e hein
      · intro e he
        rcases mem_updateObj he with rfl | ⟨hein, _⟩
        · simpa using hmem (a, o) hao
        · exact hmem e hein
      · intro e he
        rcases mem_updateObj he with rfl | ⟨hein, _⟩
        · simpa using hlog (a, o) hao
        · exact hlog e hein

/-- Release preserves the object-runtime invariant. -/
theorem objcWf_release {s s' : ObjcState} {a : Nat}
    (hwf : objcWf s) (h : nsRelease s a = some s') : objcWf s' := by
  obtain ⟨hnd, hcnt, hmem, hlog, hlnd⟩ := hwf
  simp only [nsRelease, decRefcount] at h
  cases hlook : lookupObj s a with
  | none =>
      rw [hlook] at h
      exact Option.noConfusion h
  | some o =>
      rw [hlook] at h
      dsimp only at h
      have hao : (a, o) ∈ s.objects := lookup_mem hlook
      have hrc1 : 1 ≤ o.refcount := hcnt _ hao
      rw [if_neg (by omega)] at h
      dsimp only at h
      by_cases hz : (o.refcount == 1) = true
      · rw [if_pos hz] at h
        have hrc : o.refcount = 1 := by
          have := beq_iff_eq.mp hz
          exact this
        simp only [nsDealloc, deallocObject, lookupObj] at h
        rw [lookup_updateObj_self hlook] at h
        dsimp only at h
        cases hfree : memFree s.mem a with
        | none =>
            rw [hfree] at h
            exact Option.noConfusion h
        | some mem' =>
            rw [hfree] at h
            simp only [Option.map_some', Option.some.injEq] at h
            subst h
            refine ⟨?_, ?_, ?_, ?_, ?_⟩
            · have hsub : List.Sublist
                  (((updateObj s.objects a
                    { o with refcount := o.refcount - 1 }).filter
                      fun e => ¬ e.1 = a).map Prod.fst)
                  ((updateObj s.objects a
                    { o with refcount := o.refcount - 1 }).map Prod.fst) :=
                (List.filter_sublist _).map Prod.fst
              rw [keys_updateObj] at hsub
              exact hnd.sublist hsub
            · intro e he
              have hkey := List.of_mem_filter he
              have hein := List.mem_of_mem_filter he
              rcases mem_updateObj hein with rfl | ⟨hein2, _⟩
              · simp at hkey
              · exact hcnt e hein2
            · intro e he
              have hkey := List.of_mem_filter he
              have hein := List.mem_of_mem_filter he
              simp only [decide_eq_true_eq] at hkey
              rcases mem_updateObj hein with rfl | ⟨hein2, _⟩
              · simp at hkey
              · exact memFree_other hfree e.1 hkey (hmem e hein2)
            · intro e he
              have hkey := List.of_mem_filter he
              have hein := List.mem_of_mem_filter he
              simp only [decide_eq_true_eq] at hkey
              rcases mem_updateObj hein with rfl | ⟨hein2, _⟩
              · simp at hkey
              · simp only [List.mem_append, List.mem_singleton]
                rintro (hin | rfl)
                · exact hlog e hein2 hin
                · exact hkey rfl
            · have hnotin : a ∉ s.deallocLog := hlog _ hao
              simp [List.nodup_append, hlnd, hnotin]
      · rw [if_neg hz] at h
        simp only [Option.some.injEq] at h
        have hne1 : o.refcount ≠ 1 := by
          intro hcontra
          exact hz (beq_iff_eq.mpr hcontra)
        subst h
        refine ⟨?_, ?_, ?_, ?_, hlnd⟩
        · rw [keys_updateObj]
          exact hnd
        · intro e he
          rcases mem_updateObj he with rfl | ⟨hein, _⟩
          · simp only
            omega
          · exact hcnt e hein
        · intro e he
          rcases mem_updateObj he with rfl | ⟨hein, _⟩
          · simpa using hmem (a, o) hao
          · exact hmem e hein
        · intro e he
          rcases mem_updateObj he with rfl | ⟨hein, _⟩
          · simpa using hlog (a, o) hao
          · exact hlog e hein

/-- Every run of retains and releases preserves the invariant. -/
theorem objcWf_run {ops : List RcOp} : ∀ {s s' : ObjcState}, objcWf s →
    runRcOps s ops = some s' → objcWf s' := by
  induction ops with
  | nil =>
      intro s s' hwf h
      simp only [runRcOps, Option.some.injEq] at h
      exact h ▸ hwf
  | cons op r ih =>
      intro s s' hwf h
      cases op with
      | ret a =>
          simp only [runRcOps] at h
          cases hst : nsRetain s a with
          | none =>
              rw [hst] at h
              exact Option.noConfusion h
          | some p =>
              rw [hst] at h
              exact ih (objcWf_retain hwf hst) h
      | rel a =>
          simp only [runRcOps] at h
          cases hst : nsRelease s a with
          | none =>
              rw [hst] at h
              exact Option.noConfusion h
          | some s1 =>
              rw [hst] at h
              exact ih (objcWf_release hwf hst) h

/-- C2: release decrements the reference count; exactly on the 1 to 0
transition it invokes the teardown, after which the object is removed
from the lookup table and its guest memory is freed; a release that
leaves the count positive never invokes teardown, and along any
successful run of retains and releases the teardown log stays free of
repeats, so teardown is never invoked twice for the same object. -/
theorem c2_release_teardown :
    (∀ s a o s', lookupObj s a = some o → 2 ≤ o.refcount →
      nsRelease s a = some s' →
      lookupObj s' a = some { o with refcount := o.refcount - 1 } ∧
      s'.deallocLog = s.deallocLog ∧ s'.mem = s.mem) ∧
    (∀ s a o s', objcWf s → lookupObj s a = some o → o.refcount = 1 →
      nsRelease s a = some s' →
      lookupObj s' a = none ∧ s'.deallocLog = s.deallocLog ++ [a] ∧
      ∀ al ∈ s'.mem.allocs, al.base = a → al.live = false) ∧
    (∀ s ops s', objcWf s → runRcOps s ops = some s' →
      s'.deallocLog.Nodup) := by
  refine ⟨?_, ?_, ?_⟩
  · intro s a o s' hlook hrc h
    simp only [nsRelease, decRefcount] at h
    rw [hlook] at h
    dsimp only at h
    rw [if_neg (by omega)] at h
    dsimp only at h
    rw [if_neg (by
      intro hcontra
      have := beq_iff_eq.mp hcontra
      omega)] at h
    simp only [Option.some.injEq] at h
    subst h
    refine ⟨?_, rfl, rfl⟩
    simp only [lookupObj]
    exact lookup_updateObj_self hlook
  · intro s a o s' hwf hlook hrc h
    obtain ⟨hnd, hcnt, hmem, hlog, hlnd⟩ := hwf
    have hany : (s.mem.allocs.any fun al =>
        al.live && decide (al.base = a)) = true := by
      simpa using hmem _ (lookup_mem hlook)
    simp only [nsRelease, decRefcount] at h
    rw [hlook] at h
    dsimp only at h
    rw [if_neg (by omega)] at h
    dsimp only at h
    rw [if_pos (by rw [hrc]; rfl)] at h
    simp only [nsDealloc, deallocObject, lookupObj] at h
    rw [lookup_updateObj_self hlook] at h
    dsimp only at h
    cases hfree : memFree s.mem a with
    | none =>
        exfalso
        unfold memFree at hfree
        rw [if_pos hany] at hfree
        exact Option.noConfusion hfree
    | some mem' =>
        rw [hfree] at h
        simp only [Option.map_some', Option.some.injEq] at h
        subst h
        refine ⟨?_, rfl, ?_⟩
        · simp only [lookupObj]
          exact lookup_filter_self _ _
        · exact memFree_not_live hfree
  · exact fun s ops s' hwf h => (objcWf_run hwf h).2.2.2.2

/-- C2 witness: releasing the count-two object at 8 decrements it
without teardown; releasing the count-one object at 16 removes it, logs
its single teardown and frees its slot. -/
theorem c2_witness :
    (lookupObj sObjRel 8 = some { isa := 0, refcount := 1 } ∧
      sObjRel.deallocLog = sObj.deallocLog ∧ sObjRel.mem = sObj.mem) ∧
    (lookupObj sObjDe 16 = none ∧
      sObjDe.deallocLog = sObj.deallocLog ++ [16] ∧
      ∀ al ∈ sObjDe.mem.allocs, al.base = 16 → al.live = false) ∧
    sObjDe.deallocLog.Nodup :=
  ⟨c2_release_teardown.1 sObj 8 { isa := 0, refcount := 2 } sObjRel
      (by decide) (by decide) (by decide),
   c2_release_teardown.2.1 sObj 16 { isa := 0, refcount := 1 } sObjDe
      (by decide) (by decide) (by decide) (by decide),
   c2_release_teardown.2.2 sObj [RcOp.rel 16] sObjDe (by decide) (by decide)⟩

/-- C3: a retain followed by a release leaves the reference count as
observed through retainCount unchanged and does not deallocate the
object, and along any successful run of retains and releases every live
object's count stays at least one, so it never goes negative. -/
theorem c3_retain_release_neutral :
    (∀ s a o, lookupObj s a = some o → 1 ≤ o.refcount →
      ∃ p, nsRetain s a = some p ∧ p.2 = a ∧
        ∃ s2, nsRelease p.1 a = some s2 ∧
          nsRetainCount s2 a = nsRetainCount s a ∧
          lookupObj s2 a = some o ∧ s2.deallocLog = s.deallocLog) ∧
    (∀ s ops s', objcWf s → runRcOps s ops = some s' →
      ∀ e ∈ s'.objects, 1 ≤ e.2.refcount) := by
  refine ⟨?_, ?_⟩
  · intro s a o hlook hrc
    have hret : nsRetain s a = some ({ s with objects := updateObj s.objects a { o with refcount := o.refcount + 1 } }, a) := by
      simp only [nsRetain, incRefcount]
      rw [hlook]
      rfl
    refine ⟨_, hret, rfl, ?_⟩
    have hl1 : List.lookup a (updateObj s.objects a { o with refcount := o.refcount + 1 }) = some { o with refcount := o.refcount + 1 } :=
      lookup_updateObj_self hlook
    have hrel : nsRelease { s with objects := updateObj s.objects a { o with refcount := o.refcount + 1 } } a = some { s with objects := updateObj (updateObj s.objects a { o with refcount := o.refcount + 1 }) a { o with refcount := o.refcount + 1 - 1 } } := by
      simp only [nsRelease, decRefcount, lookupObj]
      rw [hl1]
      dsimp only
      rw [if_neg (by omega)]
      dsimp only
      rw [if_neg (by
        intro hcontra
        have := beq_iff_eq.mp hcontra
        omega)]
    refine ⟨_, hrel, ?_, ?_, rfl⟩
    · simp only [nsRetainCount, lookupObj]
      have hlook' : List.lookup a s.objects = some o := hlook
      rw [lookup_updateObj_self hl1, hlook']
      have hsub : o.refcount + 1 - 1 = o.refcount := by omega
      rw [hsub]
    · simp only [lookupObj]
      rw [lookup_updateObj_self hl1]
      have hsub : o.refcount + 1 - 1 = o.refcount := by omega
      rw [hsub]
  · exact fun s ops s' hwf h => (objcWf_run hwf h).2.1

/-- C3 witness: retain then release on the count-two object at 8 leaves
its observed count and the runtime state's teardown log unchanged, and a
concrete run keeps all counts at least one. -/
theorem c3_witness :
    (∃ p, nsRetain sObj 8 = some p ∧ p.2 = 8 ∧
      ∃ s2, nsRelease p.1 8 = some s2 ∧
        nsRetainCount s2 8 = nsRetainCount sObj 8 ∧
        lookupObj s2 8 = some { isa := 0, refcount := 2 } ∧
        s2.deallocLog = sObj.deallocLog) ∧
    (∀ e ∈ sObjRel.objects, 1 ≤ e.2.refcount) :=
  ⟨c3_retain_release_neutral.1 sObj 8 { isa := 0, refcount := 2 }
      (by decide) (by decide),
   c3_retain_release_neutral.2 sObj [RcOp.rel 8] sObjRel
      (by decide) (by decide)⟩

/-- Characterisation of lookups after an in-place entry update. -/
theorem lookup_updateEntry {β : Type} (l : List (Nat × β)) (a : Nat) (v : β)
    (u : Nat) :
    List.lookup u (updateEntry l a v) =
      if u = a then (List.lookup a l).map fun _ => v else List.lookup u l := by
  induction l with
  | nil =>
      by_cases hu : u = a <;> simp [updateEntry, List.lookup, hu]
  | cons e r ih =>
      obtain ⟨k, w⟩ := e
      by_cases hk : k = a
      · subst hk
        simp only [updateEntry, List.map_cons, if_pos rfl]
        by_cases hu : u = k
        · subst hu
          simp [List.lookup]
        · have hbu : (u == k) = false := beq_false_of_ne hu
          simp only [List.lookup, hbu, if_neg hu]
          simpa [updateEntry, if_neg hu] using ih
      · simp only [updateEntry, List.map_cons, if_neg hk]
        by_cases hu : u = k
        · subst hu
          have hba : (u == a) = false := beq_false_of_ne fun hc => hk hc
          simp [List.lookup, if_neg hk]
        · have hbu : (u == k) = false := beq_false_of_ne hu
          have hba : (a == k) = false := beq_false_of_ne fun hc => hk hc.symm
          simp only [List.lookup, hbu, hba]
          simpa [updateEntry] using ih

/-- Characterisation of lookups after filtering one key out. -/
theorem lookup_filter_out {β : Type} (l : List (Nat × β)) (a u : Nat) :
    List.lookup u (l.filter fun e => ¬ e.1 = a) =
      if u = a then none else List.lookup u l := by
  induction l with
  | nil =>
      by_cases hu : u = a <;> simp [List.lookup, hu]
  | cons e r ih =>
      obtain ⟨k, w⟩ := e
      by_cases hk : k = a
      · subst hk
        rw [List.filter_cons, if_neg (by simp)]
        by_cases hu : u = k
        · subst hu
          simpa [if_pos rfl] using ih
        · have hbu : (u == k) = false := beq_false_of_ne hu
          simp only [List.lookup, hbu]
          exact ih
      · rw [List.filter_cons, if_pos (by simpa using hk)]
        by_cases hu : u = k
        · subst hu
          have hua : ¬ u = a := hk
          simp [List.lookup, if_neg hua]
        · have hbu : (u == k) = false := beq_false_of_ne hu
          simp only [List.lookup, hbu]
          exact ih

/-- Entry updates preserve the key list. -/
theorem keys_updateEntry {β : Type} (l : List (Nat × β)) (a : Nat) (v : β) :
    (updateEntry l a v).map Prod.fst = l.map Prod.fst := by
  induction l with
  | nil => rfl
  | cons e r ih =>
      simp only [updateEntry, List.map_cons] at *
      by_cases hk : e.1 = a
      · rw [if_pos hk]
        simp only [List.map_cons, ih]
        rw [← hk]
      · rw [if_neg hk]
        simp only [List.map_cons, ih]

/-- Entries after an update are the fresh pair (whose key was present)
or untouched entries with another key. -/
theorem mem_updateEntryE {β : Type} {l : List (Nat × β)} {a : Nat} {v : β}
    {e : Nat × β} (h : e ∈ updateEntry l a v) :
    (e = (a, v) ∧ a ∈ l.map Prod.fst) ∨ (e ∈ l ∧ e.1 ≠ a) := by
  simp only [updateEntry, List.mem_map] at h
  obtain ⟨e0, he0, heq⟩ := h
  by_cases hk : e0.1 = a
  · rw [if_pos hk] at heq
    exact Or.inl ⟨heq.symm, List.mem_map.mpr ⟨e0, he0, hk⟩⟩
  · rw [if_neg hk] at heq
    subst heq
    exact Or.inr ⟨he0, hk⟩

/-- With duplicate-free keys, each entry is what lookup finds at its
key. -/
theorem entry_lookup_of_nodup {β : Type} {l : List (Nat × β)}
    (hnd : (l.map Prod.fst).Nodup) {e : Nat × β} (he : e ∈ l) :
    List.lookup e.1 l = some e.2 := by
  induction l with
  | nil => simp at he
  | cons f r ih =>
      simp only [List.map_cons, List.nodup_cons] at hnd
      rcases List.mem_cons.mp he with rfl | hin
      · simp [List.lookup]
      · have hne : e.1 ≠ f.1 := by
          intro hc
          exact hnd.1 (hc ▸ List.mem_map.mpr ⟨e, hin, rfl⟩)
        have hbu : (e.1 == f.1) = false := beq_false_of_ne hne
        obtain ⟨k, w⟩ := f
        simp only [List.lookup, hbu]
        exact ih hnd.2 hin

/-- A successful lookup names an entry. -/
theorem lookupE_mem {β : Type} {l : List (Nat × β)} {a : Nat} {o : β}
    (h : List.lookup a l = some o) : (a, o) ∈ l := by
  induction l with
  | nil => simp [List.lookup] at h
  | cons e r ih =>
      obtain ⟨k, w⟩ := e
      by_cases hk : a = k
      · subst hk
        simp only [List.lookup, beq_self_eq_true, Option.some.injEq] at h
        subst h
        exact List.mem_cons_self _ _
      · have hba : (a == k) = false := beq_false_of_ne hk
        simp only [List.lookup, hba] at h
        exact List.mem_cons_of_mem _ (ih h)

/-- shrinks is reflexive. -/
theorem shrinks_refl (s : ViewState) : shrinks s s :=
  fun _ vk' h => ⟨vk', h, Or.inl rfl⟩

/-- shrinks composes. -/
theorem shrinks_trans {s1 s2 s3 : ViewState} (h12 : shrinks s1 s2)
    (h23 : shrinks s2 s3) : shrinks s1 s3 := by
  intro k vk' h
  obtain ⟨vk2, h2, hd2⟩ := h23 k vk' h
  obtain ⟨vk1, h1, hd1⟩ := h12 k vk2 h2
  refine ⟨vk1, h1, ?_⟩
  rcases hd2 with hd2 | hd2
  · rcases hd1 with hd1 | hd1
    · exact Or.inl (hd2.trans hd1)
    · exact Or.inr (hd2.trans hd1)
  · exact Or.inr hd2

/-- The auxiliary facts survive any in-place entry update. -/
theorem viewAux_update {s : ViewState} {a : Nat} {v : ViewObj}
    (haux : viewAux s) :
    viewAux { s with table := updateEntry s.table a v } := by
  obtain ⟨hnz, hnd⟩ := haux
  constructor
  · intro e he
    rcases mem_updateEntryE he with ⟨rfl, hkey⟩ | ⟨hin, _⟩
    · obtain ⟨e0, he0, hfst⟩ := List.mem_map.mp hkey
      simpa using hfst ▸ hnz e0 he0
    · exact hnz e hin
  · simpa [keys_updateEntry] using hnd

/-- An update that keeps the superview and subviews fields preserves the
weakened hierarchy invariant. -/
theorem invExcept_update_fields {s : ViewState} {A : List Nat} {a : Nat}
    {v v' : ViewObj} (hlook : List.lookup a s.table = some v)
    (hsup : v'.superview = v.superview) (hsub : v'.subviews = v.subviews)
    (hinv : viewInvExcept s A) :
    viewInvExcept { s with table := updateEntry s.table a v' } A := by
  intro e he
  have hchar : ∀ u, List.lookup u (updateEntry s.table a v') =
      if u = a then some v' else List.lookup u s.table := by
    intro u
    rw [lookup_updateEntry]
    by_cases hu : u = a
    · rw [if_pos hu, if_pos hu, hlook]
      rfl
    · rw [if_neg hu, if_neg hu]
  rcases mem_updateEntryE he with ⟨rfl, _⟩ | ⟨hin, hne⟩
  · obtain ⟨hnodup, hchild, hplive, hpmem⟩ := hinv (a, v) (lookupE_mem hlook)
    refine ⟨by simpa [hsub] using hnodup, ?_, ?_, ?_⟩
    · intro c hc
      rw [hsub] at hc
      have := hchild c hc
      simp only at hchar ⊢
      rw [hchar c]
      by_cases hca : c = a
      · subst hca
        rw [hlook] at this
        simp only [Option.map_some'] at this
        rw [if_pos rfl]
        simp only [Option.map_some', Option.some.injEq]
        rw [hsup]
        exact Option.some.inj this
      · rw [if_neg hca]
        exact this
    · intro hs
      simp only at hs
      rw [hsup] at hs
      have := hplive hs
      simp only
      rw [hchar v'.superview, hsup]
      by_cases hpa : v.superview = a
      · rw [if_pos hpa]
        rfl
      · rw [if_neg hpa]
        exact this
    · intro hs hA
      simp only at hs hA
      rw [hsup] at hs hA
      have := hpmem hs hA
      simp only
      rw [hchar v'.superview, hsup]
      by_cases hpa : v.superview = a
      · rw [if_pos hpa]
        rw [hpa, hlook] at this
        simp only [Option.map_some'] at this ⊢
        rw [hsub]
        exact this
      · rw [if_neg hpa]
        exact this
  · obtain ⟨hnodup, hchild, hplive, hpmem⟩ := hinv e hin
    refine ⟨hnodup, ?_, ?_, ?_⟩
    · intro c hc
      have := hchild c hc
      rw [hchar c]
      by_cases hca : c = a
      · subst hca
        rw [hlook] at this
        simp only [Option.map_some'] at this
        rw [if_pos rfl]
        simp only [Option.map_some', Option.some.injEq]
        rw [hsup]
        exact Option.some.inj this
      · rw [if_neg hca]
        exact this
    · intro hs
      have := hplive hs
      rw [hchar e.2.superview]
      by_cases hpa : e.2.superview = a
      · rw [if_pos hpa]
        rfl
      · rw [if_neg hpa]
        exact this
    · intro hs hA
      have := hpmem hs hA
      rw [hchar e.2.superview]
      by_cases hpa : e.2.superview = a
      · rw [if_pos hpa]
        rw [hpa, hlook] at this
        simp only [Option.map_some'] at this ⊢
        rw [hsub]
        exact this
      · rw [if_neg hpa]
        exact this

/-- A mapped superview lookup names a record. -/
theorem mapSup_some {t : List (Nat × ViewObj)} {u x : Nat}
    (h : (List.lookup u t).map ViewObj.superview = some x) :
    ∃ uo, List.lookup u t = some uo ∧ uo.superview = x := by
  cases hl : List.lookup u t with
  | none =>
      rw [hl] at h
      exact Option.noConfusion h
  | some uo =>
      rw [hl] at h
      exact ⟨uo, rfl, by simpa using h⟩

/-- A mapped membership lookup names a record. -/
theorem mapMem_some {t : List (Nat × ViewObj)} {p c : Nat}
    (h : ((List.lookup p t).map fun po => decide (c ∈ po.subviews)) =
      some true) :
    ∃ po, List.lookup p t = some po ∧ c ∈ po.subviews := by
  cases hl : List.lookup p t with
  | none =>
      rw [hl] at h
      exact Option.noConfusion h
  | some po =>
      rw [hl] at h
      exact ⟨po, rfl, by simpa using h⟩

/-- Lookup after an update whose key was present. -/
theorem lookup_updateEntry_of_lookup {β : Type} {l : List (Nat × β)}
    {a : Nat} {v0 : β} (h : List.lookup a l = some v0) (v : β) (u : Nat) :
    List.lookup u (updateEntry l a v) =
      if u = a then some v else List.lookup u l := by
  rw [lookup_updateEntry]
  by_cases hu : u = a
  · rw [if_pos hu, if_pos hu, h]
    rfl
  · rw [if_neg hu, if_neg hu]

/-- The hierarchy invariant restated through lookups, for duplicate-free
keys. -/
theorem invExcept_of_lookup {s : ViewState} {A : List Nat}
    (hnd : (s.table.map Prod.fst).Nodup)
    (h : ∀ b w, List.lookup b s.table = some w →
      w.subviews.Nodup ∧
      (∀ c ∈ w.subviews,
        (List.lookup c s.table).map ViewObj.superview = some b) ∧
      (w.superview ≠ 0 → (List.lookup w.superview s.table).isSome = true) ∧
      (w.superview ≠ 0 → w.superview ∉ A →
        ((List.lookup w.superview s.table).map fun po =>
          decide (b ∈ po.subviews)) = some true)) :
    viewInvExcept s A := by
  intro e he
  simpa using h e.1 e.2 (entry_lookup_of_nodup hnd he)

/-- A looked-up view key is not the nil address. -/
theorem key_ne_zero {s : ViewState} {a : Nat} {v : ViewObj}
    (haux : viewAux s) (h : List.lookup a s.table = some v) : a ≠ 0 :=
  haux.1 _ (lookupE_mem h)

/-- The hierarchy invariant specialised to one looked-up entry. -/
theorem invExcept_at {s : ViewState} {A : List Nat} {b : Nat} {w : ViewObj}
    (hinv : viewInvExcept s A) (h : List.lookup b s.table = some w) :
    w.subviews.Nodup ∧
    (∀ c ∈ w.subviews,
      (List.lookup c s.table).map ViewObj.superview = some b) ∧
    (w.superview ≠ 0 → (List.lookup w.superview s.table).isSome = true) ∧
    (w.superview ≠ 0 → w.superview ∉ A →
      ((List.lookup w.superview s.table).map fun po =>
        decide (b ∈ po.subviews)) = some true) := by
  simpa using hinv (b, w) (lookupE_mem h)

/-- The teardown engine preserves the (weakened) hierarchy invariant:
every successful release or dealloc keeps wellformedness, only shrinks
the table, leaves unrelated entries untouched, removes the deallocated
entry, and the dealloc subview loop additionally erases all superview
pointers to the dying parent. -/
theorem viewExec_inv (fuel : Nat) :
    (∀ s a s' A, viewAux s → viewInvExcept s A → exemptOk s A → a ∉ A →
      viewExec fuel (ViewCall.rel a) s = some s' → relPost s s' A a) ∧
    (∀ s a s' A, viewAux s → viewInvExcept s A → exemptOk s A → a ∉ A →
      viewExec fuel (ViewCall.dea a) s = some s' → deaPost s s' A a) ∧
    (∀ r s x A s', subsPre s x A r →
      viewExec fuel (ViewCall.subs r) s = some s' → subsPost s s' x A r) := by
  induction fuel with
  | zero =>
      refine ⟨?_, ?_, ?_⟩
      · intro s a s' A _ _ _ _ h
        exact Option.noConfusion h
      · intro s a s' A _ _ _ _ h
        exact Option.noConfusion h
      · intro r s x A s' _ h
        exact Option.noConfusion h
  | succ fuel ih =>
      obtain ⟨ihRel, ihDea, ihSubs⟩ := ih
      refine ⟨?_, ?_, ?_⟩
      · -- release
        intro s a s' A haux hinv hex hnA h
        simp only [viewExec] at h
        cases hlook : lookupView s a with
        | none =>
            rw [hlook] at h
            exact Option.noConfusion h
        | some v =>
            rw [hlook] at h
            dsimp only at h
            have hlk : List.lookup a s.table = some v := hlook
            by_cases hv0 : v.refcount = 0
            · rw [if_pos hv0] at h
              exact Option.noConfusion h
            · rw [if_neg hv0] at h
              have hchar1 := lookup_updateEntry_of_lookup hlk
                { v with refcount := v.refcount - 1 }
              have haux1 : viewAux { s with table := updateEntry s.table a { v with refcount := v.refcount - 1 } } :=
                viewAux_update haux
              have hinv1 : viewInvExcept { s with table := updateEntry s.table a { v with refcount := v.refcount - 1 } } A :=
                invExcept_update_fields hlk rfl rfl hinv
              have hex1 : exemptOk { s with table := updateEntry s.table a { v with refcount := v.refcount - 1 } } A := by
                intro y hy
                obtain ⟨yo, hyo, hys, hyb⟩ := hex y hy
                have hya : y ≠ a := fun hc => hnA (hc ▸ hy)
                refine ⟨yo, ?_, hys, hyb⟩
                show List.lookup y (updateEntry s.table a { v with refcount := v.refcount - 1 }) = some yo
                rw [hchar1 y, if_neg hya]
                exact hyo
              have hshr1 : shrinks s { s with table := updateEntry s.table a { v with refcount := v.refcount - 1 } } := by
                intro k vk' hk
                rw [hchar1 k] at hk
                by_cases hka : k = a
                · rw [if_pos hka] at hk
                  subst hka
                  injection hk with hk
                  subst hk
                  exact ⟨v, hlk, Or.inl rfl⟩
                · rw [if_neg hka] at hk
                  exact ⟨vk', hk, Or.inl rfl⟩
              by_cases hz : v.refcount - 1 = 0
              · rw [if_pos hz] at h
                obtain ⟨⟨haux2, hinv2, hshr, hsur⟩, _⟩ :=
                  ihDea _ a s' A haux1 hinv1 hex1 hnA h
                refine ⟨haux2, hinv2, shrinks_trans hshr1 hshr, ?_⟩
                intro u vu hu hlu hdisj
                have hl1 : List.lookup u (updateEntry s.table a { v with refcount := v.refcount - 1 }) = some vu := by
                  rw [hchar1 u, if_neg hu]
                  exact hlu
                exact hsur u vu hu hl1 hdisj
              · rw [if_neg hz] at h
                injection h with h
                subst h
                refine ⟨haux1, hinv1, hshr1, ?_⟩
                intro u vu hu hlu _
                show List.lookup u (updateEntry s.table a { v with refcount := v.refcount - 1 }) = some vu
                rw [hchar1 u, if_neg hu]
                exact hlu
      · -- dealloc
        intro s a s' A haux hinv hex hnA h
        simp only [viewExec] at h
        cases hlook : lookupView s a with
        | none =>
            rw [hlook] at h
            exact Option.noConfusion h
        | some v =>
            rw [hlook] at h
            dsimp only at h
            have hlk : List.lookup a s.table = some v := hlook
            by_cases hs0 : v.superview = 0
            · rw [if_neg (not_not_intro hs0)] at h
              have ha0 : a ≠ 0 := key_ne_zero haux hlk
              obtain ⟨hvnd, hvch, hvp, hvm⟩ := invExcept_at hinv hlk
              have hchar1 := lookup_updateEntry_of_lookup hlk
                { refcount := v.refcount, layer := 0, subviews := [], superview := 0 }
              have haux1 : viewAux { s with table := updateEntry s.table a { refcount := v.refcount, layer := 0, subviews := [], superview := 0 } } :=
                viewAux_update haux
              have hinv1 : viewInvExcept { s with table := updateEntry s.table a { refcount := v.refcount, layer := 0, subviews := [], superview := 0 } } (a :: A) := by
                have hnd1 : ((updateEntry s.table a { refcount := v.refcount, layer := 0, subviews := [], superview := 0 }).map Prod.fst).Nodup := by
                  rw [keys_updateEntry]
                  exact haux.2
                refine invExcept_of_lookup hnd1 ?_
                intro b w hbw
                rw [hchar1 b] at hbw
                by_cases hba : b = a
                · subst hba
                  rw [if_pos rfl] at hbw
                  injection hbw with hbw
                  subst hbw
                  refine ⟨by simp, ?_, ?_, ?_⟩
                  · intro c hc
                    simp at hc
                  · intro hsup
                    exact absurd rfl hsup
                  · intro hsup _
                    exact absurd rfl hsup
                · rw [if_neg hba] at hbw
                  obtain ⟨h1, h2, h3, h4⟩ := invExcept_at hinv hbw
                  have hb0 : b ≠ 0 := key_ne_zero haux hbw
                  refine ⟨h1, ?_, ?_, ?_⟩
                  · intro c hc
                    have hcs := h2 c hc
                    by_cases hca : c = a
                    · subst hca
                      rw [hlk] at hcs
                      have hvb : v.superview = b := by simpa using hcs
                      have hbz : b = 0 := by
                        rw [← hvb]
                        exact hs0
                      exact absurd hbz hb0
                    · rw [hchar1 c, if_neg hca]
                      exact hcs
                  · intro hws
                    rw [hchar1 w.superview]
                    by_cases hpa : w.superview = a
                    · rw [if_pos hpa]
                      rfl
                    · rw [if_neg hpa]
                      exact h3 hws
                  · intro hws hni
                    have hne : w.superview ≠ a := fun hc =>
                      hni (by rw [hc]; exact List.mem_cons_self a A)
                    have hniA : w.superview ∉ A := fun hc =>
                      hni (List.mem_cons_of_mem a hc)
                    rw [hchar1 w.superview, if_neg hne]
                    exact h4 hws hniA
              have hex1 : exemptOk { s with table := updateEntry s.table a { refcount := v.refcount, layer := 0, subviews := [], superview := 0 } } (a :: A) := by
                intro y hy
                rcases List.mem_cons.mp hy with rfl | hyA
                · refine ⟨{ refcount := v.refcount, layer := 0, subviews := [], superview := 0 }, ?_, rfl, rfl⟩
                  show List.lookup y (updateEntry s.table y { refcount := v.refcount, layer := 0, subviews := [], superview := 0 }) = _
                  rw [hchar1 y, if_pos rfl]
                · obtain ⟨yo, hyo, hys, hyb⟩ := hex y hyA
                  have hya : y ≠ a := fun hc => hnA (hc ▸ hyA)
                  refine ⟨yo, ?_, hys, hyb⟩
                  show List.lookup y (updateEntry s.table a { refcount := v.refcount, layer := 0, subviews := [], superview := 0 }) = some yo
                  rw [hchar1 y, if_neg hya]
                  exact hyo
              have hchild : ∀ c ∈ v.subviews,
                  (List.lookup c (updateEntry s.table a { refcount := v.refcount, layer := 0, subviews := [], superview := 0 })).map ViewObj.superview = some a := by
                intro c hc
                have hcs := hvch c hc
                have hca : c ≠ a := by
                  intro hceq
                  subst hceq
                  rw [hlk] at hcs
                  have hvc : v.superview = c := by simpa using hcs
                  have hcz : c = 0 := by
                    rw [← hvc]
                    exact hs0
                  exact key_ne_zero haux hlk hcz
                rw [hchar1 c, if_neg hca]
                exact hcs
              have hptr : ∀ u vu,
                  List.lookup u (updateEntry s.table a { refcount := v.refcount, layer := 0, subviews := [], superview := 0 }) = some vu →
                  vu.superview = a → u ∈ v.subviews := by
                intro u vu hu hsup
                rw [hchar1 u] at hu
                by_cases hua : u = a
                · rw [if_pos hua] at hu
                  injection hu with hu
                  rw [← hu] at hsup
                  exact absurd hsup.symm ha0
                · rw [if_neg hua] at hu
                  obtain ⟨_, _, _, h4⟩ := invExcept_at hinv hu
                  have h4' := h4 (by rw [hsup]; exact ha0) (by rw [hsup]; exact hnA)
                  rw [hsup, hlk] at h4'
                  simpa using h4'
              cases hrun : viewExec fuel (ViewCall.subs v.subviews)
                  { s with table := updateEntry s.table a { refcount := v.refcount, layer := 0, subviews := [], superview := 0 } } with
              | none =>
                  rw [hrun] at h
                  exact Option.noConfusion h
              | some s2 =>
                  rw [hrun] at h
                  dsimp only at h
                  obtain ⟨haux2, hinv2, hshr12, hsurL, hnoptr, hex2⟩ :=
                    ihSubs v.subviews _ a A s2
                      ⟨haux1, hinv1, hex1, hchild, hptr, hvnd⟩ hrun
                  cases hidx : s2.views.findIdx? (fun y => y == a) with
                  | none =>
                      rw [hidx] at h
                      exact Option.noConfusion h
                  | some i =>
                      rw [hidx] at h
                      dsimp only at h
                      injection h with h
                      subst h
                      have hfil : ∀ u, List.lookup u (s2.table.filter fun e => ¬ e.1 = a) =
                          if u = a then none else List.lookup u s2.table :=
                        fun u => lookup_filter_out s2.table a u
                      have hshr1 : shrinks s { s with table := updateEntry s.table a { refcount := v.refcount, layer := 0, subviews := [], superview := 0 } } := by
                        intro k vk' hk
                        rw [hchar1 k] at hk
                        by_cases hka : k = a
                        · rw [if_pos hka] at hk
                          subst hka
                          injection hk with hk
                          subst hk
                          exact ⟨v, hlk, Or.inr rfl⟩
                        · rw [if_neg hka] at hk
                          exact ⟨vk', hk, Or.inl rfl⟩
                      have hndF : ((s2.table.filter fun e => ¬ e.1 = a).map Prod.fst).Nodup := by
                        have hsub : List.Sublist
                            ((s2.table.filter fun e => ¬ e.1 = a).map Prod.fst)
                            (s2.table.map Prod.fst) :=
                          (List.filter_sublist _).map Prod.fst
                        exact haux2.2.sublist hsub
                      refine ⟨⟨⟨?_, hndF⟩, ?_, ?_, ?_⟩, ?_⟩
                      · intro e he
                        exact haux2.1 e (List.mem_of_mem_filter he)
                      · refine invExcept_of_lookup hndF ?_
                        intro b w hbw
                        rw [hfil b] at hbw
                        by_cases hba : b = a
                        · rw [if_pos hba] at hbw
                          exact Option.noConfusion hbw
                        · rw [if_neg hba] at hbw
                          obtain ⟨h1, h2, h3, h4⟩ := invExcept_at hinv2 hbw
                          have hb0 : b ≠ 0 := key_ne_zero haux2 hbw
                          refine ⟨h1, ?_, ?_, ?_⟩
                          · intro c hc
                            have hcs := h2 c hc
                            have hca : c ≠ a := by
                              intro hceq
                              subst hceq
                              obtain ⟨ao, hao, hasup, hasub⟩ :=
                                hex2 c (List.mem_cons_self c A)
                              rw [hao] at hcs
                              have hab : ao.superview = b := by simpa using hcs
                              rw [hasup] at hab
                              exact hb0 hab.symm
                            rw [hfil c, if_neg hca]
                            exact hcs
                          · intro hws
                            have hwa : w.superview ≠ a := hnoptr b w hbw
                            rw [hfil w.superview, if_neg hwa]
                            exact h3 hws
                          · intro hws hni
                            have hwa : w.superview ≠ a := hnoptr b w hbw
                            have hniaA : w.superview ∉ a :: A := by
                              intro hc
                              rcases List.mem_cons.mp hc with hc | hc
                              · exact hwa hc
                              · exact hni hc
                            rw [hfil w.superview, if_neg hwa]
                            exact h4 hws hniaA
                      · refine shrinks_trans (shrinks_trans hshr1 hshr12) ?_
                        intro k vk' hk
                        rw [hfil k] at hk
                        by_cases hka : k = a
                        · rw [if_pos hka] at hk
                          exact Option.noConfusion hk
                        · rw [if_neg hka] at hk
                          exact ⟨vk', hk, Or.inl rfl⟩
                      · intro u vu hu hlu hdisj
                        have hur : u ∉ v.subviews := by
                          intro hin
                          have hcs := hvch u hin
                          rw [hlu] at hcs
                          have hsupa : vu.superview = a := by simpa using hcs
                          rcases hdisj with h0 | hlive
                          · rw [h0] at hsupa
                            exact ha0 hsupa.symm
                          · rw [hsupa] at hlive
                            rw [hfil a, if_pos rfl] at hlive
                            simp at hlive
                        have hl1 : List.lookup u (updateEntry s.table a { refcount := v.refcount, layer := 0, subviews := [], superview := 0 }) = some vu := by
                          rw [hchar1 u, if_neg hu]
                          exact hlu
                        have hl2 : List.lookup u s2.table = some vu := by
                          apply hsurL u vu hur hl1
                          rcases hdisj with h0 | hlive
                          · exact Or.inl h0
                          · right
                            rw [hfil vu.superview] at hlive
                            by_cases hpa : vu.superview = a
                            · rw [if_pos hpa] at hlive
                              simp at hlive
                            · rw [if_neg hpa] at hlive
                              exact hlive
                        show List.lookup u (s2.table.filter fun e => ¬ e.1 = a) = some vu
                        rw [hfil u, if_neg hu]
                        exact hl2
                      · show List.lookup a (s2.table.filter fun e => ¬ e.1 = a) = none
                        rw [hfil a, if_pos rfl]
            · rw [if_pos hs0] at h
              exact Option.noConfusion h
      · -- subview loop
        intro r s x A s' hpre h
        obtain ⟨haux, hinv, hex, hchild, hptr, hnodup⟩ := hpre
        cases r with
        | nil =>
            simp only [viewExec] at h
            injection h with h
            subst h
            refine ⟨haux, hinv, shrinks_refl s, ?_, ?_, hex⟩
            · intro u vu _ hlu _
              exact hlu
            · intro u vu hlu hceq
              exact absurd (hptr u vu hlu hceq) (List.not_mem_nil u)
        | cons c rest =>
            simp only [viewExec] at h
            cases hlook : lookupView s c with
            | none =>
                rw [hlook] at h
                exact Option.noConfusion h
            | some vo =>
                rw [hlook] at h
                dsimp only at h
                have hlk : List.lookup c s.table = some vo := hlook
                obtain ⟨hcr, hrnd⟩ := List.nodup_cons.mp hnodup
                have hvsup : vo.superview = x := by
                  have hcs := hchild c (List.mem_cons_self c rest)
                  rw [hlk] at hcs
                  simpa using hcs
                obtain ⟨xo, hxo, hxsup, hxsub⟩ := hex x (List.mem_cons_self x A)
                have hx0 : x ≠ 0 := key_ne_zero haux hxo
                have hc0 : c ≠ 0 := key_ne_zero haux hlk
                have hcx : c ≠ x := by
                  intro hceq
                  rw [hceq, hxo] at hlk
                  injection hlk with he
                  rw [← he] at hvsup
                  rw [hxsup] at hvsup
                  exact hx0 hvsup.symm
                have hcA : c ∉ x :: A := by
                  intro hcmem
                  obtain ⟨co, hco, hcos, _⟩ := hex c hcmem
                  rw [hlk] at hco
                  injection hco with hco
                  rw [← hco] at hcos
                  rw [hvsup] at hcos
                  exact hx0 hcos
                have hchar1 := lookup_updateEntry_of_lookup hlk { vo with superview := 0 }
                have haux1 : viewAux { s with table := updateEntry s.table c { vo with superview := 0 } } :=
                  viewAux_update haux
                obtain ⟨hvond, hvoch, hvop, hvom⟩ := invExcept_at hinv hlk
                have hinv1 : viewInvExcept { s with table := updateEntry s.table c { vo with superview := 0 } } (x :: A) := by
                  have hnd1 : ((updateEntry s.table c { vo with superview := 0 }).map Prod.fst).Nodup := by
                    rw [keys_updateEntry]
                    exact haux.2
                  refine invExcept_of_lookup hnd1 ?_
                  intro b w hbw
                  rw [hchar1 b] at hbw
                  by_cases hbc : b = c
                  · subst hbc
                    rw [if_pos rfl] at hbw
                    injection hbw with hbw
                    subst hbw
                    refine ⟨hvond, ?_, ?_, ?_⟩
                    · intro m hm
                      have hms := hvoch m hm
                      have hmc : m ≠ b := by
                        intro hmeq
                        subst hmeq
                        rw [hlk] at hms
                        have hvb : vo.superview = m := by simpa using hms
                        rw [hvsup] at hvb
                        exact hcx hvb.symm
                      rw [hchar1 m, if_neg hmc]
                      exact hms
                    · intro hws
                      exact absurd rfl hws
                    · intro hws _
                      exact absurd rfl hws
                  · rw [if_neg hbc] at hbw
                    obtain ⟨h1, h2, h3, h4⟩ := invExcept_at hinv hbw
                    have hb0 : b ≠ 0 := key_ne_zero haux hbw
                    refine ⟨h1, ?_, ?_, ?_⟩
                    · intro m hm
                      have hms := h2 m hm
                      by_cases hmc : m = c
                      · subst hmc
                        rw [hlk] at hms
                        have hvb : vo.superview = b := by simpa using hms
                        have hbx : b = x := by
                          rw [← hvb]
                          exact hvsup
                        subst hbx
                        rw [hxo] at hbw
                        injection hbw with hbw
                        rw [hbw] at hxsub
                        rw [hxsub] at hm
                        exact absurd hm (List.not_mem_nil m)
                      · rw [hchar1 m, if_neg hmc]
                        exact hms
                    · intro hws
                      rw [hchar1 w.superview]
                      by_cases hpc : w.superview = c
                      · rw [if_pos hpc]
                        rfl
                      · rw [if_neg hpc]
                        exact h3 hws
                    · intro hws hni
                      have h4' := h4 hws hni
                      by_cases hpc : w.superview = c
                      · rw [hpc, hlk] at h4'
                        rw [hchar1 w.superview, if_pos hpc]
                        simpa using h4'
                      · rw [hchar1 w.superview, if_neg hpc]
                        exact h4'
                have hex1 : exemptOk { s with table := updateEntry s.table c { vo with superview := 0 } } (x :: A) := by
                  intro y hy
                  obtain ⟨yo, hyo, hys, hyb⟩ := hex y hy
                  have hyc : y ≠ c := fun hceq => hcA (hceq ▸ hy)
                  refine ⟨yo, ?_, hys, hyb⟩
                  show List.lookup y (updateEntry s.table c { vo with superview := 0 }) = some yo
                  rw [hchar1 y, if_neg hyc]
                  exact hyo
                cases hrel : viewExec fuel (ViewCall.rel c)
                    { s with table := updateEntry s.table c { vo with superview := 0 } } with
                | none =>
                    rw [hrel] at h
                    exact Option.noConfusion h
                | some s2 =>
                    rw [hrel] at h
                    dsimp only at h
                    obtain ⟨haux2, hinv2, hshr12, hsur12⟩ :=
                      ihRel _ c s2 (x :: A) haux1 hinv1 hex1 hcA hrel
                    have hxne : x ≠ c := fun hceq => hcx hceq.symm
                    have hxl1 : List.lookup x (updateEntry s.table c { vo with superview := 0 }) = some xo := by
                      rw [hchar1 x, if_neg hxne]
                      exact hxo
                    have hxo2 : List.lookup x s2.table = some xo :=
                      hsur12 x xo hxne hxl1 (Or.inl hxsup)
                    have hex2 : exemptOk s2 (x :: A) := by
                      intro y hy
                      obtain ⟨yo, hyo, hys, hyb⟩ := hex y hy
                      have hyc : y ≠ c := fun hceq => hcA (hceq ▸ hy)
                      have hyl1 : List.lookup y (updateEntry s.table c { vo with superview := 0 }) = some yo := by
                        rw [hchar1 y, if_neg hyc]
                        exact hyo
                      exact ⟨yo, hsur12 y yo hyc hyl1 (Or.inl hys), hys, hyb⟩
                    have hchild2 : ∀ u ∈ rest,
                        (List.lookup u s2.table).map ViewObj.superview = some x := by
                      intro u hu
                      have huc : u ≠ c := fun hceq => hcr (hceq ▸ hu)
                      obtain ⟨uo, huo, husup⟩ :=
                        mapSup_some (hchild u (List.mem_cons_of_mem c hu))
                      have hul1 : List.lookup u (updateEntry s.table c { vo with superview := 0 }) = some uo := by
                        rw [hchar1 u, if_neg huc]
                        exact huo
                      have hul2 : List.lookup u s2.table = some uo := by
                        apply hsur12 u uo huc hul1
                        right
                        rw [husup, hxo2]
                        rfl
                      rw [hul2]
                      exact congrArg some husup
                    have hptr2 : ∀ u vu, List.lookup u s2.table = some vu →
                        vu.superview = x → u ∈ rest := by
                      intro u vu hu hsupx
                      obtain ⟨vu1, hu1, hd⟩ := hshr12 u vu hu
                      have hd1 : vu1.superview = x := by
                        rcases hd with hd | hd
                        · rw [← hd]
                          exact hsupx
                        · rw [hd] at hsupx
                          exact absurd hsupx.symm hx0
                      rw [hchar1 u] at hu1
                      by_cases huc : u = c
                      · rw [if_pos huc] at hu1
                        injection hu1 with hu1
                        rw [← hu1] at hd1
                        exact absurd hd1.symm hx0
                      · rw [if_neg huc] at hu1
                        have hmem := hptr u vu1 hu1 hd1
                        rcases List.mem_cons.mp hmem with hceq | hin
                        · exact absurd hceq huc
                        · exact hin
                    obtain ⟨haux3, hinv3, hshr3, hsurL3, hnoptr3, hex3⟩ :=
                      ihSubs rest s2 x A s'
                        ⟨haux2, hinv2, hex2, hchild2, hptr2, hrnd⟩ h
                    refine ⟨haux3, hinv3, ?_, ?_, hnoptr3, hex3⟩
                    · refine shrinks_trans (shrinks_trans ?_ hshr12) hshr3
                      intro k vk' hk
                      rw [hchar1 k] at hk
                      by_cases hkc : k = c
                      · rw [if_pos hkc] at hk
                        subst hkc
                        injection hk with hk
                        subst hk
                        exact ⟨vo, hlk, Or.inr rfl⟩
                      · rw [if_neg hkc] at hk
                        exact ⟨vk', hk, Or.inl rfl⟩
                    · intro u vu hu hlu hdisj
                      have huc : u ≠ c := fun hceq =>
                        hu (by rw [hceq]; exact List.mem_cons_self c rest)
                      have hur : u ∉ rest := fun hin =>
                        hu (List.mem_cons_of_mem c hin)
                      have hl1 : List.lookup u (updateEntry s.table c { vo with superview := 0 }) = some vu := by
                        rw [hchar1 u, if_neg huc]
                        exact hlu
                      have hdisj2 : vu.superview = 0 ∨
                          (List.lookup vu.superview s2.table).isSome = true := by
                        rcases hdisj with h0 | hlive
                        · exact Or.inl h0
                        · right
                          cases hls : List.lookup vu.superview s'.table with
                          | none =>
                              rw [hls] at hlive
                              exact absurd hlive (by simp)
                          | some z =>
                              obtain ⟨z2, hz2, _⟩ := hshr3 vu.superview z hls
                              rw [hz2]
                              rfl
                      have hl2 : List.lookup u s2.table = some vu :=
                        hsur12 u vu huc hl1 hdisj2
                      exact hsurL3 u vu hur hl2 hdisj

/-- Updating one entry with the same superview and an equal subview set
(as a set, duplicate-free) keeps the hierarchy invariant. -/
theorem invExcept_update_subviews {s : ViewState} {A : List Nat} {a : Nat}
    {v v' : ViewObj} (hlook : List.lookup a s.table = some v)
    (hsup : v'.superview = v.superview)
    (hnd : v'.subviews.Nodup)
    (hset : ∀ c, c ∈ v'.subviews ↔ c ∈ v.subviews)
    (hinv : viewInvExcept s A) :
    viewInvExcept { s with table := updateEntry s.table a v' } A := by
  have hchar := lookup_updateEntry_of_lookup hlook v'
  intro e he
  rcases mem_updateEntryE he with ⟨rfl, _⟩ | ⟨hin, hne⟩
  · obtain ⟨h1, h2, h3, h4⟩ := invExcept_at hinv hlook
    refine ⟨hnd, ?_, ?_, ?_⟩
    · intro c hc
      have hcv : c ∈ v.subviews := (hset c).mp hc
      have hcs := h2 c hcv
      show (List.lookup c (updateEntry s.table a v')).map ViewObj.superview = _
      rw [hchar c]
      by_cases hca : c = a
      · rw [if_pos hca]
        rw [hca, hlook] at hcs
        simp only [Option.map_some', Option.some.injEq] at hcs ⊢
        rw [hsup]
        exact hcs
      · rw [if_neg hca]
        exact hcs
    · intro hws
      have hws' : v.superview ≠ 0 := by
        rw [← hsup]
        exact hws
      have hold := h3 hws'
      show (List.lookup (a, v').2.superview (updateEntry s.table a v')).isSome = true
      rw [hchar]
      by_cases hpa : (a, v').2.superview = a
      · rw [if_pos hpa]
        rfl
      · rw [if_neg hpa]
        show (List.lookup v'.superview s.table).isSome = true
        rw [hsup]
        exact hold
    · intro hws hni
      have hws' : v.superview ≠ 0 := by
        rw [← hsup]
        exact hws
      have hni' : v.superview ∉ A := by
        have hs : (a, v').2.superview = v.superview := hsup
        rw [← hs]
        exact hni
      have h4' := h4 hws' hni'
      show ((List.lookup (a, v').2.superview (updateEntry s.table a v')).map fun po =>
        decide ((a, v').1 ∈ po.subviews)) = some true
      rw [hchar]
      by_cases hpa : (a, v').2.superview = a
      · rw [if_pos hpa]
        have hpa' : v.superview = a := by
          rw [← hsup]
          exact hpa
        rw [hpa', hlook] at h4'
        have hav : a ∈ v.subviews := by simpa using h4'
        simp only [Option.map_some', Option.some.injEq, decide_eq_true_eq]
        exact (hset a).mpr hav
      · rw [if_neg hpa]
        show ((List.lookup v'.superview s.table).map fun po =>
          decide (a ∈ po.subviews)) = some true
        rw [hsup]
        exact h4'
  · obtain ⟨h1, h2, h3, h4⟩ := hinv e hin
    refine ⟨h1, ?_, ?_, ?_⟩
    · intro c hc
      have hcs := h2 c hc
      show (List.lookup c (updateEntry s.table a v')).map ViewObj.superview = _
      rw [hchar c]
      by_cases hca : c = a
      · rw [if_pos hca]
        rw [hca, hlook] at hcs
        simp only [Option.map_some', Option.some.injEq] at hcs ⊢
        rw [hsup]
        exact hcs
      · rw [if_neg hca]
        exact hcs
    · intro hws
      have hold := h3 hws
      show (List.lookup e.2.superview (updateEntry s.table a v')).isSome = true
      rw [hchar]
      by_cases hpa : e.2.superview = a
      · rw [if_pos hpa]
        rfl
      · rw [if_neg hpa]
        exact hold
    · intro hws hni
      have h4' := h4 hws hni
      show ((List.lookup e.2.superview (updateEntry s.table a v')).map fun po =>
        decide (e.1 ∈ po.subviews)) = some true
      rw [hchar]
      by_cases hpa : e.2.superview = a
      · rw [if_pos hpa]
        rw [hpa, hlook] at h4'
        have hev : e.1 ∈ v.subviews := by simpa using h4'
        simp only [Option.map_some', Option.some.injEq, decide_eq_true_eq]
        exact (hset e.1).mpr hev
      · rw [if_neg hpa]
        exact h4'

/-- bringSubviewToFront: preserves wellformedness, only reorders the
receiver's subviews and touches nothing else. -/
theorem bring_to_front_wf {s : ViewState} {this subview : Nat}
    {s' : ViewState} (hwf : viewWf s)
    (h : bringSubviewToFront s this subview = some s') :
    viewWf s' ∧ s'.views = s.views ∧
    (∀ u, (List.lookup u s'.table).map ViewObj.refcount =
      (List.lookup u s.table).map ViewObj.refcount) ∧
    ∃ vt, List.lookup this s.table = some vt ∧
      List.lookup this s'.table =
        some { vt with subviews := (vt.subviews.erase subview) ++ [subview] } ∧
      (∀ u, u ≠ this → List.lookup u s'.table = List.lookup u s.table) := by
  obtain ⟨haux, hinv⟩ := hwf
  simp only [bringSubviewToFront] at h
  cases hlook : lookupView s this with
  | none =>
      rw [hlook] at h
      exact Option.noConfusion h
  | some v =>
      rw [hlook] at h
      dsimp only at h
      have hlk : List.lookup this s.table = some v := hlook
      by_cases hmem : subview ∈ v.subviews
      · rw [if_pos hmem] at h
        cases hlk2 : lookupView { s with table := updateEntry s.table this { v with subviews := (v.subviews.erase subview) ++ [subview] } } subview with
        | none =>
            rw [hlk2] at h
            exact Option.noConfusion h
        | some w =>
            rw [hlk2] at h
            dsimp only at h
            injection h with h
            subst h
            obtain ⟨hvnd, hvch, hvp, hvm⟩ := invExcept_at hinv hlk
            have hchar := lookup_updateEntry_of_lookup hlk
              { v with subviews := (v.subviews.erase subview) ++ [subview] }
            have hend : (v.subviews.erase subview).Nodup := hvnd.erase subview
            have hnotin : subview ∉ v.subviews.erase subview := by
              intro hc
              exact ((List.Nodup.mem_erase_iff hvnd).mp hc).1 rfl
            have hnd' : ((v.subviews.erase subview) ++ [subview]).Nodup := by
              refine hend.append (List.nodup_singleton subview) ?_
              intro x hx hx2
              simp only [List.mem_singleton] at hx2
              rw [hx2] at hx
              exact hnotin hx
            have hset : ∀ c, c ∈ (v.subviews.erase subview) ++ [subview] ↔
                c ∈ v.subviews := by
              intro c
              constructor
              · intro hc
                rcases List.mem_append.mp hc with hc | hc
                · exact List.mem_of_mem_erase hc
                · simp only [List.mem_singleton] at hc
                  rw [hc]
                  exact hmem
              · intro hc
                by_cases hcs : c = subview
                · exact List.mem_append.mpr (Or.inr (by simp [hcs]))
                · exact List.mem_append.mpr
                    (Or.inl ((List.mem_erase_of_ne hcs).mpr hc))
            refine ⟨⟨viewAux_update haux,
              invExcept_update_subviews hlk rfl hnd' hset hinv⟩, rfl, ?_, ?_⟩
            · intro u
              show (List.lookup u (updateEntry s.table this { v with subviews := (v.subviews.erase subview) ++ [subview] })).map ViewObj.refcount = _
              rw [hchar u]
              by_cases hu : u = this
              · rw [if_pos hu, hu, hlk]
                rfl
              · rw [if_neg hu]
            · refine ⟨v, hlk, ?_, ?_⟩
              · show List.lookup this (updateEntry s.table this { v with subviews := (v.subviews.erase subview) ++ [subview] }) = _
                rw [hchar this, if_pos rfl]
              · intro u hu
                show List.lookup u (updateEntry s.table this { v with subviews := (v.subviews.erase subview) ++ [subview] }) = _
                rw [hchar u, if_neg hu]
      · rw [if_neg hmem] at h
        exact Option.noConfusion h

/-- removeFromSuperview: preserves wellformedness, and on success the
view's record (if still present) has a nil superview. -/
theorem remove_wf (fuel : Nat) {s : ViewState} {this : Nat}
    {s' : ViewState} (hwf : viewWf s)
    (h : removeFromSuperview fuel s this = some s') :
    viewWf s' ∧ (∀ w, List.lookup this s'.table = some w → w.superview = 0) := by
  obtain ⟨haux, hinv⟩ := hwf
  simp only [removeFromSuperview] at h
  cases hlook : lookupView s this with
  | none =>
      rw [hlook] at h
      exact Option.noConfusion h
  | some v =>
      rw [hlook] at h
      dsimp only at h
      have hlk : List.lookup this s.table = some v := hlook
      have hchar1 := lookup_updateEntry_of_lookup hlk { v with superview := 0 }
      by_cases hs0 : v.superview = 0
      · rw [if_pos hs0] at h
        injection h with h
        subst h
        refine ⟨⟨viewAux_update haux,
          invExcept_update_fields hlk hs0.symm rfl hinv⟩, ?_⟩
        intro w hw
        have hw' : List.lookup this (updateEntry s.table this { v with superview := 0 }) = some w := hw
        rw [hchar1 this, if_pos rfl] at hw'
        injection hw' with hw'
        rw [← hw']
      · rw [if_neg hs0] at h
        cases hlkp : lookupView { s with table := updateEntry s.table this { v with superview := 0 } } v.superview with
        | none =>
            rw [hlkp] at h
            exact Option.noConfusion h
        | some sup =>
            rw [hlkp] at h
            dsimp only at h
            by_cases hmem : this ∈ sup.subviews
            · rw [if_pos hmem] at h
              have hlkp' : List.lookup v.superview (updateEntry s.table this { v with superview := 0 }) = some sup := hlkp
              have hchar2 := lookup_updateEntry_of_lookup hlkp'
                { sup with subviews := sup.subviews.erase this }
              have charF : ∀ u, List.lookup u
                  (updateEntry (updateEntry s.table this { v with superview := 0 }) v.superview { sup with subviews := sup.subviews.erase this }) =
                  if u = v.superview then some { sup with subviews := sup.subviews.erase this }
                  else if u = this then some { v with superview := 0 }
                  else List.lookup u s.table := by
                intro u
                rw [hchar2 u]
                by_cases hup : u = v.superview
                · rw [if_pos hup, if_pos hup]
                · rw [if_neg hup, if_neg hup, hchar1 u]
              have hthis0 : this ≠ 0 := key_ne_zero haux hlk
              obtain ⟨hvnd, hvch, hvp, hvm⟩ := invExcept_at hinv hlk
              have hps : v.superview ≠ this →
                  List.lookup v.superview s.table = some sup := by
                intro hne
                have hx := hlkp'
                rw [hchar1 v.superview, if_neg hne] at hx
                exact hx
              have hsupv : v.superview = this →
                  sup = { v with superview := 0 } := by
                intro heq
                have hx := hlkp'
                rw [hchar1 v.superview, if_pos heq] at hx
                injection hx with hx
                exact hx.symm
              have hsupnd : sup.subviews.Nodup := by
                by_cases hpt : v.superview = this
                · rw [hsupv hpt]
                  exact hvnd
                · exact (invExcept_at hinv (hps hpt)).1
              have hsupch : ∀ c ∈ sup.subviews,
                  (List.lookup c s.table).map ViewObj.superview = some v.superview := by
                by_cases hpt : v.superview = this
                · intro c hc
                  rw [hsupv hpt] at hc
                  rw [hpt]
                  exact hvch c hc
                · intro c hc
                  exact (invExcept_at hinv (hps hpt)).2.1 c hc
              have hsupp3 : sup.superview ≠ 0 →
                  (List.lookup sup.superview s.table).isSome = true := by
                by_cases hpt : v.superview = this
                · intro hne
                  rw [hsupv hpt] at hne
                  exact absurd rfl hne
                · exact (invExcept_at hinv (hps hpt)).2.2.1
              have hsupp4 : sup.superview ≠ 0 →
                  ((List.lookup sup.superview s.table).map fun po =>
                    decide (v.superview ∈ po.subviews)) = some true := by
                by_cases hpt : v.superview = this
                · intro hne
                  rw [hsupv hpt] at hne
                  exact absurd rfl hne
                · intro hne
                  exact (invExcept_at hinv (hps hpt)).2.2.2 hne (List.not_mem_nil _)
              have haux1 : viewAux { s with table := updateEntry s.table this { v with superview := 0 } } :=
                viewAux_update haux
              have haux2 : viewAux { table := updateEntry (updateEntry s.table this { v with superview := 0 }) v.superview { sup with subviews := sup.subviews.erase this }, views := s.views } :=
                viewAux_update haux1
              have hndk : ((updateEntry (updateEntry s.table this { v with superview := 0 }) v.superview { sup with subviews := sup.subviews.erase this }).map Prod.fst).Nodup := by
                rw [keys_updateEntry, keys_updateEntry]
                exact haux.2
              have hinv2 : viewInvExcept { table := updateEntry (updateEntry s.table this { v with superview := 0 }) v.superview { sup with subviews := sup.subviews.erase this }, views := s.views } [] := by
                refine invExcept_of_lookup hndk ?_
                intro b w hbw
                rw [charF b] at hbw
                by_cases hbp : b = v.superview
                · rw [if_pos hbp] at hbw
                  injection hbw with hbw
                  subst hbw
                  refine ⟨?_, ?_, ?_, ?_⟩
                  · show (sup.subviews.erase this).Nodup
                    exact hsupnd.erase this
                  · intro c hc
                    have hc' : c ∈ sup.subviews.erase this := hc
                    have hcne : c ≠ this :=
                      ((List.Nodup.mem_erase_iff hsupnd).mp hc').1
                    have hcm : c ∈ sup.subviews := List.mem_of_mem_erase hc'
                    have hcs := hsupch c hcm
                    rw [charF c]
                    by_cases hcp : c = v.superview
                    · rw [if_pos hcp]
                      have hpt : v.superview ≠ this := by
                        rw [← hcp]
                        exact hcne
                      rw [hcp, hps hpt] at hcs
                      have hss : sup.superview = v.superview := by simpa using hcs
                      rw [hbp]
                      simp only [Option.map_some', Option.some.injEq]
                      exact hss
                    · rw [if_neg hcp, if_neg hcne]
                      rw [hbp]
                      exact hcs
                  · show sup.superview ≠ 0 → _
                    intro hws
                    rw [charF]
                    by_cases hq : sup.superview = v.superview
                    · rw [if_pos hq]
                      rfl
                    · rw [if_neg hq]
                      by_cases hqt : sup.superview = this
                      · rw [if_pos hqt]
                        rfl
                      · rw [if_neg hqt]
                        exact hsupp3 hws
                  · show sup.superview ≠ 0 → _
                    intro hws _
                    have h4' := hsupp4 hws
                    rw [hbp, charF]
                    by_cases hq : sup.superview = v.superview
                    · rw [if_pos hq]
                      have hpt : v.superview ≠ this := by
                        intro hceq
                        have hsv := hsupv hceq
                        rw [hsv] at hws
                        exact hws rfl
                      rw [hq, hps hpt] at h4'
                      have hpm : v.superview ∈ sup.subviews := by simpa using h4'
                      simp only [Option.map_some', Option.some.injEq,
                        decide_eq_true_eq]
                      exact (List.mem_erase_of_ne hpt).mpr hpm
                    · rw [if_neg hq]
                      by_cases hqt : sup.superview = this
                      · rw [if_pos hqt]
                        rw [hqt, hlk] at h4'
                        have hpm : v.superview ∈ v.subviews := by simpa using h4'
                        simp only [Option.map_some', Option.some.injEq,
                          decide_eq_true_eq]
                        exact hpm
                      · rw [if_neg hqt]
                        exact h4'
                · rw [if_neg hbp] at hbw
                  by_cases hbt : b = this
                  · rw [if_pos hbt] at hbw
                    injection hbw with hbw
                    subst hbw
                    refine ⟨?_, ?_, ?_, ?_⟩
                    · show v.subviews.Nodup
                      exact hvnd
                    · intro c hc
                      have hc' : c ∈ v.subviews := hc
                      have hcs := hvch c hc'
                      rw [hbt, charF c]
                      by_cases hcp : c = v.superview
                      · rw [if_pos hcp]
                        have hpt : v.superview ≠ this := fun hceq =>
                          hbp (hbt.trans hceq.symm)
                        rw [hcp, hps hpt] at hcs
                        have hss : sup.superview = this := by simpa using hcs
                        simp only [Option.map_some', Option.some.injEq]
                        exact hss
                      · rw [if_neg hcp]
                        by_cases hct : c = this
                        · rw [hct, hlk] at hcs
                          have hvthis : v.superview = this := by simpa using hcs
                          exact absurd (hbt.trans hvthis.symm) hbp
                        · rw [if_neg hct]
                          exact hcs
                    · intro hws
                      exact absurd rfl hws
                    · intro hws _
                      exact absurd rfl hws
                  · rw [if_neg hbt] at hbw
                    obtain ⟨h1, h2, h3, h4⟩ := invExcept_at hinv hbw
                    refine ⟨h1, ?_, ?_, ?_⟩
                    · intro c hc
                      have hcs := h2 c hc
                      rw [charF c]
                      by_cases hcp : c = v.superview
                      · rw [if_pos hcp]
                        by_cases hpt : v.superview = this
                        · rw [hcp, hpt, hlk] at hcs
                          have hvb : v.superview = b := by simpa using hcs
                          exact absurd hvb.symm hbp
                        · rw [hcp, hps hpt] at hcs
                          have hsb : sup.superview = b := by simpa using hcs
                          simp only [Option.map_some', Option.some.injEq]
                          exact hsb
                      · rw [if_neg hcp]
                        by_cases hct : c = this
                        · rw [if_pos hct]
                          rw [hct, hlk] at hcs
                          have hvb : v.superview = b := by simpa using hcs
                          exact absurd hvb.symm hbp
                        · rw [if_neg hct]
                          exact hcs
                    · intro hws
                      have hold := h3 hws
                      rw [charF]
                      by_cases hq : w.superview = v.superview
                      · rw [if_pos hq]
                        rfl
                      · rw [if_neg hq]
                        by_cases hqt : w.superview = this
                        · rw [if_pos hqt]
                          rfl
                        · rw [if_neg hqt]
                          exact hold
                    · intro hws _
                      have h4' := h4 hws (List.not_mem_nil _)
                      rw [charF]
                      by_cases hq : w.superview = v.superview
                      · rw [if_pos hq]
                        by_cases hpt : v.superview = this
                        · rw [hq, hpt, hlk] at h4'
                          have hbm : b ∈ v.subviews := by simpa using h4'
                          simp only [Option.map_some', Option.some.injEq,
                            decide_eq_true_eq]
                          rw [hsupv hpt]
                          exact (List.mem_erase_of_ne hbt).mpr hbm
                        · rw [hq, hps hpt] at h4'
                          have hbm : b ∈ sup.subviews := by simpa using h4'
                          simp only [Option.map_some', Option.some.injEq,
                            decide_eq_true_eq]
                          exact (List.mem_erase_of_ne hbt).mpr hbm
                      · rw [if_neg hq]
                        by_cases hqt : w.superview = this
                        · rw [if_pos hqt]
                          rw [hqt, hlk] at h4'
                          have hbm : b ∈ v.subviews := by simpa using h4'
                          simp only [Option.map_some', Option.some.injEq,
                            decide_eq_true_eq]
                          exact hbm
                        · rw [if_neg hqt]
                          exact h4'
              have hex2 : exemptOk { table := updateEntry (updateEntry s.table this { v with superview := 0 }) v.superview { sup with subviews := sup.subviews.erase this }, views := s.views } [] :=
                fun y hy => absurd hy (List.not_mem_nil y)
              obtain ⟨hrelI, _, _⟩ := viewExec_inv fuel
              obtain ⟨haux', hinv', hshr, _⟩ :=
                hrelI { table := updateEntry (updateEntry s.table this { v with superview := 0 }) v.superview { sup with subviews := sup.subviews.erase this }, views := s.views }
                  this s' [] haux2 hinv2 hex2 (List.not_mem_nil this) h
              refine ⟨⟨haux', hinv'⟩, ?_⟩
              intro w hw
              obtain ⟨w0, hw0, hd⟩ := hshr this w hw
              rw [charF this] at hw0
              by_cases hq : this = v.superview
              · rw [if_pos hq] at hw0
                injection hw0 with hw0
                have hsv := hsupv hq.symm
                rcases hd with hd | hd
                · rw [hd, ← hw0, hsv]
                · exact hd
              · rw [if_neg hq, if_pos rfl] at hw0
                injection hw0 with hw0
                rcases hd with hd | hd
                · rw [hd, ← hw0]
                · exact hd
            · rw [if_neg hmem] at h
              exact Option.noConfusion h

/-- The addSubview: tail: after the view has been detached (nil
superview), repointing it at the receiver and appending it to the
receiver's subviews restores full wellformedness. -/
theorem reparent_wf {s2 : ViewState} {view this : Nat} {vv2 vt : ViewObj}
    (hwf2 : viewWf s2)
    (hvv2 : List.lookup view s2.table = some vv2)
    (hsup0 : vv2.superview = 0)
    (hvt : List.lookup this (updateEntry s2.table view { vv2 with superview := this }) = some vt) :
    viewWf { table := updateEntry (updateEntry s2.table view { vv2 with superview := this }) this { vt with subviews := vt.subviews ++ [view] }, views := s2.views } := by
  obtain ⟨haux2, hinv2⟩ := hwf2
  have hview0 : view ≠ 0 := key_ne_zero haux2 hvv2
  have hthis0 : this ≠ 0 := by
    rcases mem_updateEntryE (lookupE_mem hvt) with ⟨he, _⟩ | ⟨hin, _⟩
    · have hte : this = view := congrArg Prod.fst he
      rw [hte]
      exact hview0
    · exact haux2.1 (this, vt) hin
  have char3 := lookup_updateEntry_of_lookup hvv2 { vv2 with superview := this }
  have char4 := lookup_updateEntry_of_lookup hvt { vt with subviews := vt.subviews ++ [view] }
  have charF : ∀ u, List.lookup u
      (updateEntry (updateEntry s2.table view { vv2 with superview := this }) this { vt with subviews := vt.subviews ++ [view] }) =
      if u = this then some { vt with subviews := vt.subviews ++ [view] }
      else if u = view then some { vv2 with superview := this }
      else List.lookup u s2.table := by
    intro u
    rw [char4 u]
    by_cases hut : u = this
    · rw [if_pos hut, if_pos hut]
    · rw [if_neg hut, if_neg hut, char3 u]
  have hnos : ∀ b w, List.lookup b s2.table = some w → view ∉ w.subviews := by
    intro b w hbw hin
    have hcs := (invExcept_at hinv2 hbw).2.1 view hin
    rw [hvv2] at hcs
    have h0 : vv2.superview = b := by simpa using hcs
    rw [hsup0] at h0
    exact key_ne_zero haux2 hbw h0.symm
  have hvtpack : vt.subviews.Nodup ∧
      (∀ c ∈ vt.subviews,
        (List.lookup c s2.table).map ViewObj.superview = some this) ∧
      view ∉ vt.subviews ∧
      (this = view → vt.superview = this) ∧
      (this ≠ view → List.lookup this s2.table = some vt) ∧
      (this = view → vt.subviews = vv2.subviews) := by
    by_cases htv : this = view
    · have hveq : { vv2 with superview := this } = vt := by
        have hx := hvt
        rw [char3 this, if_pos htv] at hx
        exact Option.some.inj hx
      obtain ⟨hnd2, hch2, _, _⟩ := invExcept_at hinv2 hvv2
      refine ⟨?_, ?_, ?_, ?_, ?_, ?_⟩
      · rw [← hveq]
        exact hnd2
      · intro c hc
        rw [← hveq] at hc
        have hx := hch2 c hc
        rw [htv]
        exact hx
      · intro hin
        rw [← hveq] at hin
        exact hnos view vv2 hvv2 hin
      · intro _
        rw [← hveq]
      · intro hne
        exact absurd htv hne
      · intro _
        rw [← hveq]
    · have hvt2 : List.lookup this s2.table = some vt := by
        have hx := hvt
        rw [char3 this, if_neg htv] at hx
        exact hx
      obtain ⟨hnd2, hch2, _, _⟩ := invExcept_at hinv2 hvt2
      exact ⟨hnd2, hch2, hnos this vt hvt2, fun hc => absurd hc htv,
        fun _ => hvt2, fun hc => absurd hc htv⟩
  obtain ⟨hvtnd, hvtch, hvnin, hvtsup_pos, hvt2_neg, hvtsubs_pos⟩ := hvtpack
  have hvt34 : vt.superview ≠ 0 → vt.superview ≠ this → vt.superview ≠ view →
      (List.lookup vt.superview s2.table).isSome = true ∧
      ((List.lookup vt.superview s2.table).map fun po =>
        decide (this ∈ po.subviews)) = some true := by
    intro hws hwt hwv
    by_cases htv : this = view
    · exact absurd (hvtsup_pos htv) hwt
    · obtain ⟨_, _, h3, h4⟩ := invExcept_at hinv2 (hvt2_neg htv)
      exact ⟨h3 hws, h4 hws (List.not_mem_nil _)⟩
  have hvtqv : vt.superview = view → vt.superview ≠ this →
      this ∈ vv2.subviews := by
    intro hqv hqt
    have htv : this ≠ view := fun hceq => hqt (hqv.trans hceq.symm)
    obtain ⟨_, _, _, h4⟩ := invExcept_at hinv2 (hvt2_neg htv)
    have h4' := h4 (by rw [hqv]; exact hview0) (List.not_mem_nil _)
    rw [hqv, hvv2] at h4'
    simpa using h4'
  have hvtqt : vt.superview = this → this ∈ vt.subviews ++ [view] := by
    intro hqt
    by_cases htv : this = view
    · exact List.mem_append.mpr (Or.inr (by simp [htv]))
    · obtain ⟨_, _, _, h4⟩ := invExcept_at hinv2 (hvt2_neg htv)
      have h4' := h4 (by rw [hqt]; exact hthis0) (List.not_mem_nil _)
      rw [hqt, hvt2_neg htv] at h4'
      have hm : this ∈ vt.subviews := by simpa using h4'
      exact List.mem_append.mpr (Or.inl hm)
  have hndk : ((updateEntry (updateEntry s2.table view { vv2 with superview := this }) this { vt with subviews := vt.subviews ++ [view] }).map Prod.fst).Nodup := by
    rw [keys_updateEntry, keys_updateEntry]
    exact haux2.2
  refine ⟨viewAux_update (viewAux_update haux2), ?_⟩
  refine invExcept_of_lookup hndk ?_
  intro b w hbw
  rw [charF b] at hbw
  by_cases hbt : b = this
  · rw [if_pos hbt] at hbw
    injection hbw with hbw
    subst hbw
    refine ⟨?_, ?_, ?_, ?_⟩
    · show (vt.subviews ++ [view]).Nodup
      refine hvtnd.append (List.nodup_singleton view) ?_
      intro x hx hx2
      simp only [List.mem_singleton] at hx2
      rw [hx2] at hx
      exact hvnin hx
    · intro c hc
      have hc' : c ∈ vt.subviews ++ [view] := hc
      rw [charF c]
      rcases List.mem_append.mp hc' with hcl | hcr
      · have hcs := hvtch c hcl
        by_cases hct : c = this
        · rw [if_pos hct]
          by_cases htv : this = view
          · rw [hct, htv, hvv2] at hcs
            have h0 : vv2.superview = view := by simpa using hcs
            rw [hsup0] at h0
            exact absurd h0.symm hview0
          · rw [hct, hvt2_neg htv] at hcs
            have hvs : vt.superview = this := by simpa using hcs
            rw [hbt]
            simp only [Option.map_some', Option.some.injEq]
            exact hvs
        · rw [if_neg hct]
          by_cases hcv : c = view
          · exact absurd (hcv ▸ hcl) hvnin
          · rw [if_neg hcv]
            rw [hbt]
            exact hcs
      · simp only [List.mem_singleton] at hcr
        by_cases hct : c = this
        · rw [if_pos hct]
          have htv : this = view := hct.symm.trans hcr
          rw [hbt]
          simp only [Option.map_some', Option.some.injEq]
          exact hvtsup_pos htv
        · rw [if_neg hct, if_pos hcr, hbt]
          rfl
    · show vt.superview ≠ 0 →
        (List.lookup vt.superview (updateEntry (updateEntry s2.table view { vv2 with superview := this }) this { vt with subviews := vt.subviews ++ [view] })).isSome = true
      intro hws
      rw [charF]
      by_cases hq : vt.superview = this
      · rw [if_pos hq]
        rfl
      · rw [if_neg hq]
        by_cases hqv : vt.superview = view
        · rw [if_pos hqv]
          rfl
        · rw [if_neg hqv]
          exact (hvt34 hws hq hqv).1
    · show vt.superview ≠ 0 → vt.superview ∉ ([] : List Nat) →
        ((List.lookup vt.superview (updateEntry (updateEntry s2.table view { vv2 with superview := this }) this { vt with subviews := vt.subviews ++ [view] })).map fun po =>
          decide (b ∈ po.subviews)) = some true
      intro hws _
      rw [hbt, charF]
      by_cases hq : vt.superview = this
      · rw [if_pos hq]
        have hm := hvtqt hq
        simp only [Option.map_some', Option.some.injEq, decide_eq_true_eq]
        exact hm
      · rw [if_neg hq]
        by_cases hqv : vt.superview = view
        · rw [if_pos hqv]
          have hm := hvtqv hqv hq
          simp only [Option.map_some', Option.some.injEq, decide_eq_true_eq]
          exact hm
        · rw [if_neg hqv]
          exact (hvt34 hws hq hqv).2
  · rw [if_neg hbt] at hbw
    by_cases hbv : b = view
    · rw [if_pos hbv] at hbw
      injection hbw with hbw
      subst hbw
      have htv : this ≠ view := fun hceq => hbt (hbv.trans hceq.symm)
      obtain ⟨hnd2, hch2, _, _⟩ := invExcept_at hinv2 hvv2
      refine ⟨?_, ?_, ?_, ?_⟩
      · show vv2.subviews.Nodup
        exact hnd2
      · intro c hc
        have hc' : c ∈ vv2.subviews := hc
        have hcs := hch2 c hc'
        rw [charF c]
        by_cases hct : c = this
        · rw [if_pos hct]
          rw [hct, hvt2_neg htv] at hcs
          have hvs : vt.superview = view := by simpa using hcs
          rw [hbv]
          simp only [Option.map_some', Option.some.injEq]
          exact hvs
        · rw [if_neg hct]
          by_cases hcv : c = view
          · exact absurd (hcv ▸ hc') (hnos view vv2 hvv2)
          · rw [if_neg hcv]
            rw [hbv]
            exact hcs
      · intro _
        show (List.lookup this (updateEntry (updateEntry s2.table view { vv2 with superview := this }) this { vt with subviews := vt.subviews ++ [view] })).isSome = true
        rw [charF this, if_pos rfl]
        rfl
      · intro _ _
        show ((List.lookup this (updateEntry (updateEntry s2.table view { vv2 with superview := this }) this { vt with subviews := vt.subviews ++ [view] })).map fun po =>
          decide (b ∈ po.subviews)) = some true
        rw [charF this, if_pos rfl, hbv]
        simp only [Option.map_some', Option.some.injEq, decide_eq_true_eq]
        exact List.mem_append.mpr (Or.inr (by simp))
    · rw [if_neg hbv] at hbw
      obtain ⟨h1, h2, h3, h4⟩ := invExcept_at hinv2 hbw
      have hb0 : b ≠ 0 := key_ne_zero haux2 hbw
      refine ⟨h1, ?_, ?_, ?_⟩
      · intro c hc
        have hcs := h2 c hc
        rw [charF c]
        by_cases hct : c = this
        · rw [if_pos hct]
          by_cases htv : this = view
          · rw [hct, htv, hvv2] at hcs
            have h0 : vv2.superview = b := by simpa using hcs
            rw [hsup0] at h0
            exact absurd h0.symm hb0
          · rw [hct, hvt2_neg htv] at hcs
            have hvs : vt.superview = b := by simpa using hcs
            simp only [Option.map_some', Option.some.injEq]
            exact hvs
        · rw [if_neg hct]
          by_cases hcv : c = view
          · rw [hcv, hvv2] at hcs
            have h0 : vv2.superview = b := by simpa using hcs
            rw [hsup0] at h0
            exact absurd h0.symm hb0
          · rw [if_neg hcv]
            exact hcs
      · intro hws
        have hold := h3 hws
        rw [charF]
        by_cases hq : w.superview = this
        · rw [if_pos hq]
          rfl
        · rw [if_neg hq]
          by_cases hqv : w.superview = view
          · rw [if_pos hqv]
            rfl
          · rw [if_neg hqv]
            exact hold
      · intro hws _
        have h4' := h4 hws (List.not_mem_nil _)
        rw [charF]
        by_cases hq : w.superview = this
        · rw [if_pos hq]
          by_cases htv : this = view
          · rw [hq, htv, hvv2] at h4'
            have hbm : b ∈ vv2.subviews := by simpa using h4'
            have hsub := hvtsubs_pos htv
            simp only [Option.map_some', Option.some.injEq, decide_eq_true_eq]
            refine List.mem_append.mpr (Or.inl ?_)
            rw [hsub]
            exact hbm
          · rw [hq, hvt2_neg htv] at h4'
            have hbm : b ∈ vt.subviews := by simpa using h4'
            simp only [Option.map_some', Option.some.injEq, decide_eq_true_eq]
            exact List.mem_append.mpr (Or.inl hbm)
        · rw [if_neg hq]
          by_cases hqv : w.superview = view
          · rw [if_pos hqv]
            rw [hqv, hvv2] at h4'
            have hbm : b ∈ vv2.subviews := by simpa using h4'
            simp only [Option.map_some', Option.some.injEq, decide_eq_true_eq]
            exact hbm
          · rw [if_neg hqv]
            exact h4'

/-- C8: every UIView operation (init, addSubview:, bringSubviewToFront:,
removeFromSuperview, dealloc, and the release that can trigger dealloc)
preserves the view-hierarchy invariant viewWf: a view occurs in a view's
subviews list iff its superview field names that view, every subviews
list is duplicate-free and contains only live views; moreover
addSubview: of a view whose superview is already the receiver only
moves it to the front of the receiver's subviews list, without
duplicating it and without changing any reference count. -/
theorem c8_view_hierarchy (fuel : Nat) (s : ViewState) (hwf : viewWf s) :
    (∀ this lyr s', initView s this lyr = some s' → viewWf s') ∧
    (∀ this subview s',
      bringSubviewToFront s this subview = some s' → viewWf s') ∧
    (∀ this s', removeFromSuperview fuel s this = some s' → viewWf s') ∧
    (∀ this view s', addSubview fuel s this view = some s' → viewWf s') ∧
    (∀ a s', releaseView fuel s a = some s' → viewWf s') ∧
    (∀ a s', deallocView fuel s a = some s' →
      viewWf s' ∧ lookupView s' a = none) ∧
    (∀ this view s' vv, lookupView s view = some vv → vv.superview = this →
      addSubview fuel s this view = some s' →
      (∀ u, (lookupView s' u).map ViewObj.refcount =
        (lookupView s u).map ViewObj.refcount) ∧
      ∃ vt, lookupView s this = some vt ∧
        lookupView s' this =
          some { vt with subviews := (vt.subviews.erase view) ++ [view] } ∧
        ((vt.subviews.erase view) ++ [view]).Nodup) := by
  obtain ⟨haux, hinv⟩ := hwf
  have hex0 : exemptOk s [] := fun y hy => absurd hy (List.not_mem_nil y)
  obtain ⟨hrelI, hdeaI, _⟩ := viewExec_inv fuel
  refine ⟨?_, ?_, ?_, ?_, ?_, ?_, ?_⟩
  · intro this lyr s' h
    simp only [initView] at h
    cases hlook : lookupView s this with
    | none =>
        rw [hlook] at h
        exact Option.noConfusion h
    | some v =>
        rw [hlook] at h
        dsimp only at h
        injection h with h
        subst h
        exact ⟨viewAux_update haux, invExcept_update_fields hlook rfl rfl hinv⟩
  · intro this subview s' h
    exact (bring_to_front_wf ⟨haux, hinv⟩ h).1
  · intro this s' h
    exact (remove_wf fuel ⟨haux, hinv⟩ h).1
  · intro this view s' h
    simp only [addSubview] at h
    by_cases hv0 : view = 0
    · rw [if_pos hv0] at h
      injection h with h
      subst h
      exact ⟨haux, hinv⟩
    · rw [if_neg hv0] at h
      cases hvv : lookupView s view with
      | none =>
          rw [hvv] at h
          exact Option.noConfusion h
      | some vv =>
          rw [hvv] at h
          dsimp only at h
          by_cases hsupt : vv.superview = this
          · rw [if_pos hsupt] at h
            exact (bring_to_front_wf ⟨haux, hinv⟩ h).1
          · rw [if_neg hsupt] at h
            simp only [retainView] at h
            rw [hvv] at h
            dsimp only at h
            have hvv' : List.lookup view s.table = some vv := hvv
            have hwf1 : viewWf { s with table := updateEntry s.table view { vv with refcount := vv.refcount + 1 } } :=
              ⟨viewAux_update haux, invExcept_update_fields hvv' rfl rfl hinv⟩
            cases hrem : removeFromSuperview fuel
                { s with table := updateEntry s.table view { vv with refcount := vv.refcount + 1 } } view with
            | none =>
                rw [hrem] at h
                exact Option.noConfusion h
            | some s2 =>
                rw [hrem] at h
                dsimp only at h
                obtain ⟨hwf2, hsup0all⟩ := remove_wf fuel hwf1 hrem
                cases hvv2 : lookupView s2 view with
                | none =>
                    rw [hvv2] at h
                    exact Option.noConfusion h
                | some vv2 =>
                    rw [hvv2] at h
                    dsimp only at h
                    have hvv2' : List.lookup view s2.table = some vv2 := hvv2
                    have hsup0 : vv2.superview = 0 := hsup0all vv2 hvv2'
                    cases hvt : lookupView { s2 with table := updateEntry s2.table view { vv2 with superview := this } } this with
                    | none =>
                        rw [hvt] at h
                        exact Option.noConfusion h
                    | some vt =>
                        rw [hvt] at h
                        dsimp only at h
                        injection h with h
                        subst h
                        have hvt' : List.lookup this (updateEntry s2.table view { vv2 with superview := this }) = some vt := hvt
                        exact reparent_wf hwf2 hvv2' hsup0 hvt'
  · intro a s' h
    obtain ⟨haux', hinv', _, _⟩ :=
      hrelI s a s' [] haux hinv hex0 (List.not_mem_nil a) h
    exact ⟨haux', hinv'⟩
  · intro a s' h
    obtain ⟨⟨haux', hinv', _, _⟩, hgone⟩ :=
      hdeaI s a s' [] haux hinv hex0 (List.not_mem_nil a) h
    exact ⟨⟨haux', hinv'⟩, hgone⟩
  · intro this view s' vv hvv hsupt h
    have hv0 : view ≠ 0 := key_ne_zero haux hvv
    simp only [addSubview] at h
    rw [if_neg hv0, hvv] at h
    dsimp only at h
    rw [if_pos hsupt] at h
    obtain ⟨hwfs, hviews, hrc, vt, hvt, hvt2, hoth⟩ :=
      bring_to_front_wf ⟨haux, hinv⟩ h
    refine ⟨hrc, vt, hvt, hvt2, ?_⟩
    exact (invExcept_at hwfs.2 hvt2).1

/-- Witness for C8: the release of view 1 in the two-view hierarchy
tears both views down and leaves the empty, wellformed state. -/
theorem c8_witness :
    viewWf { table := ([] : List (Nat × ViewObj)), views := ([] : List Nat) } :=
  (c8_view_hierarchy 10 sView (by decide)).2.2.2.2.1 1
    { table := [], views := [] } (by decide)

end Spec2Proof
